import Mathlib

/-!
Verification development for the category-tree engine of the Vinpet backend
(`src/services/CategoryService.ts`, model `src/models/Category.ts`).

The TypeScript code is embedded shallowly:
* JS strings are `String`/`List Char`; `toLowerCase`, `trim` and the regex
  replacements used by `generateSlug`/`generateKey` are modelled character by
  character on the ASCII range the regexes mention (`\s` is modelled by the
  ASCII whitespace characters).
* The Mongo collection is a `List Category`; `findById`/`findOne` are first
  match by `_id`, `findByIdAndUpdate` updates the document with the given id,
  `$addToSet`/`$pull` are membership-preserving list operations.
* `async`/`await` code performing a sequence of store operations is embedded
  as explicit state passing; `throw` is `Except.error` (each operation returns
  the store as it is when the exception escapes, so partial mutation is
  observable).
* `String.prototype.localeCompare` under the default locale is ICU collation,
  not code-point order. It is modelled, for the ASCII strings this development
  evaluates it on, as a case-insensitive primary comparison (letters weighted
  by their lowercase code points, so digits sort before letters) followed, on
  exact primary ties, by a left-to-right case pass with lowercase before
  uppercase: "a" < "B" < "b" and "iPhone" < "Zebra", where code-point order
  gives the reverse in both cases. MongoDB's binary sort on string fields, by
  contrast, is genuine code-point order and is modelled as such (`strCmp`).
-/

set_option maxHeartbeats 1000000

deriving instance DecidableEq for Except

/-- ASCII whitespace, the model of the JS `\s` character class and of the
characters removed by `String.prototype.trim`. -/
def isWs (c : Char) : Bool :=
  c = ' ' || c = '\t' || c = '\n' || c = '\r' || c = '\x0b' || c = '\x0c'

/-- `String.prototype.trim`, left part: drop leading whitespace. -/
def jsTrimL (l : List Char) : List Char := l.dropWhile isWs

/-- `String.prototype.trim`, right part: drop trailing whitespace. -/
def jsTrimR (l : List Char) : List Char := (l.reverse.dropWhile isWs).reverse

/-- `String.prototype.trim`. -/
def jsTrim (l : List Char) : List Char := jsTrimR (jsTrimL l)

/-- The character class kept by `replace(/[^a-z0-9\s-]/g, '')`. -/
def keepSlug (c : Char) : Bool :=
  ('a' ≤ c && c ≤ 'z') || ('0' ≤ c && c ≤ '9') || isWs c || c = '-'

/-- The character class kept by `replace(/[^a-z0-9\s_]/g, '')`. -/
def keepKey (c : Char) : Bool :=
  ('a' ≤ c && c ≤ 'z') || ('0' ≤ c && c ≤ '9') || isWs c || c = '_'

/-- `replace(/\s+/g, sep)`: every maximal whitespace run becomes one `sep`. -/
def wsRuns (sep : Char) : List Char → List Char
  | [] => []
  | [c] => if isWs c then [sep] else [c]
  | c :: d :: t =>
    if isWs c && isWs d then wsRuns sep (d :: t)
    else (if isWs c then sep else c) :: wsRuns sep (d :: t)

/-- `replace(/sep+/g, sep)`: every maximal run of `sep` becomes one `sep`. -/
def collapseRuns (sep : Char) : List Char → List Char
  | [] => []
  | [c] => [c]
  | c :: d :: t =>
    if c = sep && d = sep then collapseRuns sep (d :: t)
    else c :: collapseRuns sep (d :: t)

/-- Drop a single leading `sep`, if present. -/
def dropSepHead (sep : Char) : List Char → List Char
  | [] => []
  | c :: t => if c = sep then t else c :: t

/-- `replace(/^sep|sep$/g, '')`: drops ONE leading and ONE trailing `sep`
(the regex alternation matches a single character at each end). -/
def trimOne (sep : Char) (l : List Char) : List Char :=
  ((dropSepHead sep l).reverse |> dropSepHead sep).reverse

/-- `CategoryService.generateSlug`:
`name.toLowerCase().trim()`, strip `[^a-z0-9\s-]`, replace `\s+` runs by `-`,
collapse `-` runs, then strip one leading/trailing `-` (regex `^-|-$`). -/
def generateSlug (name : String) : String :=
  ⟨trimOne '-' (collapseRuns '-' (wsRuns '-'
    ((jsTrim (name.data.map Char.toLower)).filter keepSlug)))⟩

/-- `CategoryService.generateKey`:
same pipeline with `_` in place of `-`. -/
def generateKey (name : String) : String :=
  ⟨trimOne '_' (collapseRuns '_' (wsRuns '_'
    ((jsTrim (name.data.map Char.toLower)).filter keepKey)))⟩

/-- Drop every leading and every trailing `sep` (run-trimming, the reading
used by the specification's "trim leading/trailing separators"). -/
def trimRuns (sep : Char) (l : List Char) : List Char :=
  ((l.dropWhile (· == sep)).reverse.dropWhile (· == sep)).reverse

/-- The slug derivation exactly as the specification words it: lowercase;
strip every character that is not a lowercase letter, digit, whitespace or
hyphen; collapse whitespace runs into a single hyphen; collapse repeated
separators; trim leading/trailing separators.  (No early `trim()`.) -/
def deriveSlugSpec (name : String) : String :=
  ⟨trimRuns '-' (collapseRuns '-' (wsRuns '-'
    ((name.data.map Char.toLower).filter keepSlug)))⟩

/-- The key derivation exactly as the specification words it. -/
def deriveKeySpec (name : String) : String :=
  ⟨trimRuns '_' (collapseRuns '_' (wsRuns '_'
    ((name.data.map Char.toLower).filter keepKey)))⟩

example : generateSlug "About Us" = "about-us" := by decide
example : generateKey "About Us" = "about_us" := by decide
example : generateSlug "  Hello -- World!!  " = "hello-world" := by decide
example : deriveSlugSpec "  Hello -- World!!  " = "hello-world" := by decide
example : generateSlug "!!!" = "" := by decide
example : generateSlug "Products" = "products" := by decide

/-! ### Normal form for the separator pipelines

`canon sep issep started pend` is a single pass over the input:
separator-class characters only set a pending flag, any other character is
emitted, preceded by one `sep` when a separator is pending and some character
was already emitted.  It computes "collapse separator runs to one `sep` and
trim separators at both ends" in one sweep; both the code pipeline and the
spec pipeline are proved equal to it. -/
def canon (sep : Char) (issep : Char → Bool) : Bool → Bool → List Char → List Char
  | _, _, [] => []
  | started, pend, c :: t =>
    if issep c then canon sep issep started true t
    else if started && pend then sep :: c :: canon sep issep true false t
    else c :: canon sep issep true false t

theorem canon_pend_irrel (sep : Char) (issep : Char → Bool) (p : Bool)
    (l : List Char) : canon sep issep false p l = canon sep issep false false l := by
  cases l <;> simp [canon]

theorem canon_allsep (sep : Char) (issep : Char → Bool) (s p : Bool)
    (l : List Char) (h : ∀ c ∈ l, issep c = true) :
    canon sep issep s p l = [] := by
  induction l generalizing p with
  | nil => rfl
  | cons c t ih =>
    have hc : issep c = true := h c (by simp)
    simp only [canon, hc, if_pos rfl]
    exact ih true (fun d hd => h d (by simp [hd]))

theorem canon_append_sep (sep : Char) (issep : Char → Bool) (l m : List Char)
    (hm : ∀ c ∈ m, issep c = true) :
    ∀ s p, canon sep issep s p (l ++ m) = canon sep issep s p l := by
  induction l with
  | nil =>
    intro s p
    simpa using canon_allsep sep issep s p m hm
  | cons c t ih =>
    intro s p
    by_cases hc : issep c = true
    · simp [canon, hc, ih]
    · simp [canon, hc, ih]

theorem canon_sep_prefix (sep : Char) (issep : Char → Bool) (m l : List Char)
    (hm : ∀ c ∈ m, issep c = true) (p : Bool) :
    canon sep issep false p (m ++ l) = canon sep issep false false l := by
  induction m generalizing p with
  | nil => simpa using canon_pend_irrel sep issep p l
  | cons c t ih =>
    have hc : issep c = true := hm c (by simp)
    simpa [canon, hc] using ih (fun d hd => hm d (by simp [hd])) true

theorem canon_false_dropWhile (sep : Char) (issep : Char → Bool)
    (t : List Char) (p : Bool) :
    canon sep issep false p t = canon sep issep true false (t.dropWhile issep) := by
  induction t generalizing p with
  | nil => rfl
  | cons c t ih =>
    by_cases hc : issep c = true
    · simp only [canon, hc, if_pos rfl, List.dropWhile_cons, decide_eq_true_eq]
      exact ih true
    · simp [canon, hc, List.dropWhile_cons]

/-! Structure of `collapseRuns`. -/

theorem collapseRuns_cons₂_pos (sep c d : Char) (t : List Char)
    (h1 : c = sep) (h2 : d = sep) :
    collapseRuns sep (c :: d :: t) = collapseRuns sep (d :: t) := by
  simp [collapseRuns, h1, h2]

theorem collapseRuns_cons₂_neg (sep c d : Char) (t : List Char)
    (h : ¬(c = sep ∧ d = sep)) :
    collapseRuns sep (c :: d :: t) = c :: collapseRuns sep (d :: t) := by
  simp only [collapseRuns]
  rw [if_neg]
  simp only [Bool.and_eq_true, decide_eq_true_eq]
  exact h

theorem collapseRuns_cons_ex (sep c : Char) (t : List Char) :
    ∃ u, collapseRuns sep (c :: t) = c :: u := by
  induction t generalizing c with
  | nil => exact ⟨[], rfl⟩
  | cons d t ih =>
    by_cases h : c = sep ∧ d = sep
    · obtain ⟨u, hu⟩ := ih d
      refine ⟨u, ?_⟩
      rw [collapseRuns_cons₂_pos sep c d t h.1 h.2, hu, h.1, h.2]
    · exact ⟨collapseRuns sep (d :: t), collapseRuns_cons₂_neg sep c d t h⟩

theorem dropWhile_collapseRuns (sep : Char) (l : List Char) :
    (collapseRuns sep l).dropWhile (· == sep)
      = collapseRuns sep (l.dropWhile (· == sep)) := by
  induction l with
  | nil => rfl
  | cons c t ih =>
    cases t with
    | nil =>
      by_cases hc : c = sep <;>
        simp [collapseRuns, List.dropWhile_cons, List.dropWhile_nil, hc]
    | cons d t2 =>
      by_cases hcd : c = sep ∧ d = sep
      · rw [collapseRuns_cons₂_pos sep c d t2 hcd.1 hcd.2, ih]
        rw [show (c :: d :: t2).dropWhile (· == sep) = (d :: t2).dropWhile (· == sep) by
          simp [List.dropWhile_cons, hcd.1]]
      · rw [collapseRuns_cons₂_neg sep c d t2 hcd]
        by_cases hc : c = sep
        · have hd : ¬ d = sep := fun hd => hcd ⟨hc, hd⟩
          rw [show (c :: collapseRuns sep (d :: t2)).dropWhile (· == sep)
              = (collapseRuns sep (d :: t2)).dropWhile (· == sep) by
            simp [List.dropWhile_cons, hc]]
          rw [ih]
          simp [List.dropWhile_cons, hc, hd]
        · rw [show (c :: collapseRuns sep (d :: t2)).dropWhile (· == sep)
              = c :: collapseRuns sep (d :: t2) by
            simp [List.dropWhile_cons, hc]]
          rw [show (c :: d :: t2).dropWhile (· == sep) = c :: d :: t2 by
            simp [List.dropWhile_cons, hc]]
          rw [collapseRuns_cons₂_neg sep c d t2 hcd]

/-- The output of `collapseRuns` never has two adjacent separators. -/
theorem chain'_collapseRuns (sep : Char) (l : List Char) :
    (collapseRuns sep l).Chain' (fun a b => ¬(a = sep ∧ b = sep)) := by
  induction l with
  | nil => simp [collapseRuns]
  | cons c t ih =>
    cases t with
    | nil => simp [collapseRuns]
    | cons d t2 =>
      by_cases hcd : c = sep ∧ d = sep
      · rw [collapseRuns_cons₂_pos sep c d t2 hcd.1 hcd.2]
        exact ih
      · rw [collapseRuns_cons₂_neg sep c d t2 hcd]
        rw [List.chain'_cons']
        refine ⟨?_, ih⟩
        intro h hh
        obtain ⟨u, hu⟩ := collapseRuns_cons_ex sep d t2
        rw [hu] at hh
        simp only [List.head?_cons, Option.mem_def, Option.some.injEq] at hh
        subst hh
        exact hcd

/-- On lists without adjacent separators, dropping one leading separator is
the same as dropping the whole (length ≤ 1) leading run. -/
theorem dropSepHead_eq_dropWhile (sep : Char) (v : List Char)
    (hv : v.Chain' (fun a b => ¬(a = sep ∧ b = sep))) :
    dropSepHead sep v = v.dropWhile (· == sep) := by
  cases v with
  | nil => rfl
  | cons a v2 =>
    by_cases ha : a = sep
    · cases v2 with
      | nil => simp [dropSepHead, List.dropWhile_cons, ha]
      | cons b v3 =>
        rw [List.chain'_cons] at hv
        have hb : ¬ b = sep := fun hb => hv.1 ⟨ha, hb⟩
        simp [dropSepHead, List.dropWhile_cons, ha, hb]
    · simp [dropSepHead, List.dropWhile_cons, ha]

theorem dropSepHead_collapseRuns (sep : Char) (t : List Char) :
    dropSepHead sep (collapseRuns sep t)
      = collapseRuns sep (t.dropWhile (· == sep)) := by
  rw [dropSepHead_eq_dropWhile sep _ (chain'_collapseRuns sep t),
    dropWhile_collapseRuns]

/-- Trailing separator-run trimming. -/
def trimEndRuns (sep : Char) (l : List Char) : List Char :=
  (l.reverse.dropWhile (· == sep)).reverse

theorem trimRuns_eq_trimEnd (sep : Char) (l : List Char) :
    trimRuns sep l = trimEndRuns sep (l.dropWhile (· == sep)) := rfl

theorem trimEndRuns_nil (sep : Char) : trimEndRuns sep [] = [] := rfl

theorem trimEndRuns_eq_nil_iff (sep : Char) (l : List Char) :
    trimEndRuns sep l = [] ↔ l.reverse.dropWhile (· == sep) = [] := by
  unfold trimEndRuns
  constructor
  · intro h
    have := congrArg List.reverse h
    simpa using this
  · intro h
    simp [h]

theorem dropWhile_append' {α : Type} (p : α → Bool) (a b : List α) :
    (a ++ b).dropWhile p
      = if (a.dropWhile p).isEmpty then b.dropWhile p else a.dropWhile p ++ b := by
  induction a with
  | nil => simp
  | cons x a2 ih =>
    by_cases hx : p x = true
    · simpa [List.dropWhile_cons, hx] using ih
    · simp [List.dropWhile_cons, hx]

theorem trimEndRuns_cons (sep c : Char) (X : List Char) :
    trimEndRuns sep (c :: X)
      = if trimEndRuns sep X = [] then (if c = sep then [] else [c])
        else c :: trimEndRuns sep X := by
  unfold trimEndRuns
  rw [List.reverse_cons, dropWhile_append']
  by_cases h : X.reverse.dropWhile (· == sep) = []
  · rw [if_pos (by simp [h]), if_pos (by simp [h])]
    by_cases hc : c = sep <;> simp [List.dropWhile_cons, hc]
  · rw [if_neg (by simp [h])]
    have h2 : ¬ ((X.reverse.dropWhile (· == sep)).reverse = ([] : List Char)) := by
      simp [h]
    rw [if_neg h2]
    simp

/-- Trailing-trim of a collapsed list is `canon` started with no pending
separator. -/
theorem trimEnd_collapse_canon (sep : Char) : ∀ t : List Char,
    trimEndRuns sep (collapseRuns sep t) = canon sep (· == sep) true false t := by
  intro t
  induction t with
  | nil => rfl
  | cons c t ih =>
    cases t with
    | nil =>
      by_cases hc : c = sep <;>
        simp [collapseRuns, trimEndRuns, canon, hc, List.dropWhile_cons]
    | cons d t2 =>
      by_cases hcd : c = sep ∧ d = sep
      · rw [collapseRuns_cons₂_pos sep c d t2 hcd.1 hcd.2, ih, hcd.1, hcd.2]
        simp [canon]
      · rw [collapseRuns_cons₂_neg sep c d t2 hcd, trimEndRuns_cons, ih]
        by_cases h0 : canon sep (· == sep) true false (d :: t2) = []
        · rw [if_pos h0]
          by_cases hc : c = sep
          · have hd : ¬ d = sep := fun hd => hcd ⟨hc, hd⟩
            exfalso
            simp [canon, hd] at h0
          · have hstep : canon sep (· == sep) true false (c :: d :: t2)
                = c :: canon sep (· == sep) true false (d :: t2) := by
              simp [canon, hc]
            rw [hstep, h0, if_neg hc]
        · rw [if_neg h0]
          by_cases hc : c = sep
          · have hd : ¬ d = sep := fun hd => hcd ⟨hc, hd⟩
            simp [canon, hc, hd]
          · simp [canon, hc]

/-- The code's final trimming step (`trimRuns` variant) equals `canon`. -/
theorem trimRuns_collapse_canon (sep : Char) (t : List Char) :
    trimRuns sep (collapseRuns sep t) = canon sep (· == sep) false false t := by
  rw [trimRuns_eq_trimEnd, dropWhile_collapseRuns, trimEnd_collapse_canon,
    ← canon_false_dropWhile]

/-- The code's final trimming step (`trimOne` variant) equals `canon`. -/
theorem trimOne_collapse_canon (sep : Char) (t : List Char) :
    trimOne sep (collapseRuns sep t) = canon sep (· == sep) false false t := by
  have hchain : ((collapseRuns sep (t.dropWhile (· == sep))).reverse).Chain'
      (fun a b => ¬(a = sep ∧ b = sep)) := by
    rw [List.chain'_reverse]
    exact (chain'_collapseRuns sep _).imp (fun a b h hc => h ⟨hc.2, hc.1⟩)
  unfold trimOne
  rw [dropSepHead_collapseRuns, dropSepHead_eq_dropWhile sep _ hchain]
  have hre : ((collapseRuns sep (t.dropWhile (· == sep))).reverse.dropWhile
        (· == sep)).reverse
      = trimEndRuns sep (collapseRuns sep (t.dropWhile (· == sep))) := rfl
  rw [hre, trimEnd_collapse_canon, ← canon_false_dropWhile]

/-! `wsRuns` versus treating whitespace as separator directly. -/

theorem wsRuns_cons₂_pos (sep c d : Char) (t : List Char)
    (h1 : isWs c = true) (h2 : isWs d = true) :
    wsRuns sep (c :: d :: t) = wsRuns sep (d :: t) := by
  simp [wsRuns, h1, h2]

theorem wsRuns_cons₂_neg (sep c d : Char) (t : List Char)
    (h : ¬(isWs c = true ∧ isWs d = true)) :
    wsRuns sep (c :: d :: t)
      = (if isWs c = true then sep else c) :: wsRuns sep (d :: t) := by
  simp only [wsRuns]
  rw [if_neg]
  simp only [Bool.and_eq_true]
  exact h

theorem wsRuns_ws_head (sep : Char) : ∀ (t : List Char) (d : Char),
    isWs d = true → ∃ u, wsRuns sep (d :: t) = sep :: u := by
  intro t
  induction t with
  | nil =>
    intro d hd
    exact ⟨[], by simp [wsRuns, hd]⟩
  | cons e t ih =>
    intro d hd
    by_cases he : isWs e = true
    · obtain ⟨u, hu⟩ := ih e he
      exact ⟨u, by rw [wsRuns_cons₂_pos sep d e t hd he, hu]⟩
    · refine ⟨wsRuns sep (e :: t), ?_⟩
      rw [wsRuns_cons₂_neg sep d e t (fun hh => he hh.2)]
      simp [hd]

theorem canon_wsRuns (sep : Char) : ∀ (t : List Char) (s p : Bool),
    canon sep (· == sep) s p (wsRuns sep t)
      = canon sep (fun c => (c == sep) || isWs c) s p t := by
  intro t
  induction t with
  | nil =>
    intro s p
    rfl
  | cons c t ih =>
    intro s p
    cases t with
    | nil =>
      by_cases hc : isWs c = true
      · simp [wsRuns, hc, canon]
      · by_cases hcs : c = sep <;> simp [wsRuns, hc, canon, hcs]
    | cons d t2 =>
      by_cases hcd : isWs c = true ∧ isWs d = true
      · obtain ⟨u, hu⟩ := wsRuns_ws_head sep t2 d hcd.2
        rw [wsRuns_cons₂_pos sep c d t2 hcd.1 hcd.2, hu]
        have h2 := ih s true
        rw [hu] at h2
        have h1 : canon sep (· == sep) s p (sep :: u)
            = canon sep (· == sep) s true u := by simp [canon]
        have h3 : canon sep (· == sep) s true (sep :: u)
            = canon sep (· == sep) s true u := by simp [canon]
        rw [h1, ← h3, h2]
        simp [canon, hcd.1, hcd.2]
      · rw [wsRuns_cons₂_neg sep c d t2 hcd]
        by_cases hc : isWs c = true
        · rw [if_pos hc]
          have h1 : canon sep (· == sep) s p (sep :: wsRuns sep (d :: t2))
              = canon sep (· == sep) s true (wsRuns sep (d :: t2)) := by
            simp [canon]
          rw [h1, ih s true]
          simp [canon, hc]
        · rw [if_neg hc]
          by_cases hcs : c = sep
          · have h1 : canon sep (· == sep) s p (c :: wsRuns sep (d :: t2))
                = canon sep (· == sep) s true (wsRuns sep (d :: t2)) := by
              simp [canon, hcs]
            rw [h1, ih s true]
            simp [canon, hcs, hc]
          · have h1 : canon sep (· == sep) s p (c :: wsRuns sep (d :: t2))
                = if s && p then
                    sep :: c :: canon sep (· == sep) true false (wsRuns sep (d :: t2))
                  else c :: canon sep (· == sep) true false (wsRuns sep (d :: t2)) := by
              simp [canon, hcs]
            rw [h1, ih true false]
            simp [canon, hcs, hc]

/-- The central equality behind C5: the early `trim()` of the code pipeline is
absorbed by the final separator trimming, so code pipeline (with `trimOne`)
and spec pipeline (with `trimRuns`, no early trim) agree on every input. -/
theorem pipeline_eq (sep : Char) (keep : Char → Bool)
    (hkw : ∀ c, isWs c = true → keep c = true) (L : List Char) :
    trimOne sep (collapseRuns sep (wsRuns sep ((jsTrim L).filter keep)))
      = trimRuns sep (collapseRuns sep (wsRuns sep (L.filter keep))) := by
  rw [trimOne_collapse_canon, trimRuns_collapse_canon, canon_wsRuns, canon_wsRuns]
  set issepW : Char → Bool := fun c => (c == sep) || isWs c with hissep
  set p := L.takeWhile isWs with hp
  set M := jsTrim L with hM
  set q := ((jsTrimL L).reverse.takeWhile isWs).reverse with hq
  have h2 : (jsTrimL L).reverse.takeWhile isWs ++ (jsTrimL L).reverse.dropWhile isWs
      = (jsTrimL L).reverse := List.takeWhile_append_dropWhile isWs (jsTrimL L).reverse
  have h3 : M ++ q = jsTrimL L := by
    have h4 := congrArg List.reverse h2
    rw [List.reverse_append, List.reverse_reverse] at h4
    simpa [hM, jsTrim, jsTrimR, hq] using h4
  have hdec : L = p ++ (M ++ q) := by
    rw [h3, hp]
    exact (List.takeWhile_append_dropWhile isWs L).symm
  have hws_p : ∀ c ∈ p, isWs c = true := fun c hc => List.mem_takeWhile_imp hc
  have hws_q : ∀ c ∈ q, isWs c = true := by
    intro c hc
    rw [hq, List.mem_reverse] at hc
    exact List.mem_takeWhile_imp hc
  have hfil : L.filter keep = p ++ ((M.filter keep) ++ q) := by
    conv_lhs => rw [hdec]
    rw [List.filter_append, List.filter_append,
      List.filter_eq_self.mpr (fun c hc => hkw c (hws_p c hc)),
      List.filter_eq_self.mpr (fun c hc => hkw c (hws_q c hc))]
  rw [hfil,
    canon_sep_prefix sep issepW p _ (fun c hc => by simp [hissep, hws_p c hc]) false,
    canon_append_sep sep issepW (M.filter keep) q
      (fun c hc => by simp [hissep, hws_q c hc]) false false]

/-- C5: `generateSlug`/`generateKey` (the code's `deriveSlug`/`deriveKey`) are
pure functions equal, on every input, to the specification's pipeline —
lowercase; strip every character that is not a lowercase letter, digit,
whitespace or the separator; collapse whitespace runs into a single
separator; collapse repeated separators; trim leading/trailing separators —
and in particular map "About Us" to "about-us" / "about_us". -/
theorem c5_deriveSlug_deriveKey_spec :
    (∀ name : String, generateSlug name = deriveSlugSpec name) ∧
    (∀ name : String, generateKey name = deriveKeySpec name) ∧
    generateSlug "About Us" = "about-us" ∧ generateKey "About Us" = "about_us" := by
  refine ⟨?_, ?_, by decide, by decide⟩
  · intro name
    unfold generateSlug deriveSlugSpec
    exact congrArg String.mk
      (pipeline_eq '-' keepSlug (fun c hc => by simp [keepSlug, hc]) _)
  · intro name
    unfold generateKey deriveKeySpec
    exact congrArg String.mk
      (pipeline_eq '_' keepKey (fun c hc => by simp [keepKey, hc]) _)

/-! ### The category store (`models/Category.ts`, a Mongo collection)

A document of the `Category` collection.  Fields that no claim mentions
(`color`, `icon`, `metaTitle`, `metaDescription`, the per-locale
descriptions, timestamps) are omitted.  `name` is `Option String` because the
tree builder reads raw documents and guards against a missing `name`. -/
structure Category where
  id : String
  name : Option String
  slug : String
  key : String
  description : Option String
  name_en : Option String
  name_vi : Option String
  name_ko : Option String
  parent : Option String
  children : List String
  isActive : Bool
  sortOrder : Int
  deriving Repr, DecidableEq

/-- A document of the `Post` collection (only the field `deleteCategory`
queries). -/
structure Post where
  id : String
  categories : List String
  deriving Repr, DecidableEq

/-- The document store. -/
structure StoreState where
  categories : List Category
  posts : List Post
  deriving Repr, DecidableEq

/-- `mongoose.Types.ObjectId.isValid`: a 24-character hex string or a
12-character string. -/
def isValidObjectId (s : String) : Bool :=
  (s.length = 24 && s.data.all (fun c =>
    ('0' ≤ c && c ≤ '9') || ('a' ≤ c && c ≤ 'f') || ('A' ≤ c && c ≤ 'F')))
  || s.length = 12

/-- JS truthiness of an optional string (`undefined`/`null`/`''` are falsy). -/
def optTruthy : Option String → Bool
  | none => false
  | some s => s != ""

/-- `findById` / `findOne({_id: id})`: first document with the given id. -/
def findCat (cats : List Category) (id : String) : Option Category :=
  cats.find? (fun c => c.id == id)

/-- `findByIdAndUpdate(id, ...)`: update the document with the given id. -/
def updateById (cats : List Category) (id : String) (f : Category → Category) :
    List Category :=
  cats.map (fun c => if c.id = id then f c else c)

/-- `$addToSet`: append if not already a member. -/
def addToSet (l : List String) (x : String) : List String :=
  if x ∈ l then l else l ++ [x]

/-- `$pull`: remove every occurrence. -/
def pull (l : List String) (x : String) : List String :=
  l.filter (fun y => y != x)

/-! ### Unique slug/key allocation (`ensureUniqueSlug` / `ensureUniqueKey`) -/

/-- Candidate `n` probed by `ensureUniqueSlug`: the base slug, then
`base-1`, `base-2`, ... (the loop counter starts at 1). -/
def slugCand (base : String) : Nat → String
  | 0 => base
  | n + 1 => base ++ "-" ++ toString (n + 1)

/-- Candidate `n` probed by `ensureUniqueKey`: `base`, `base_1`, `base_2`, ... -/
def keyCand (base : String) : Nat → String
  | 0 => base
  | n + 1 => base ++ "_" ++ toString (n + 1)

/-- The collision probe `findOne({slug, ...(excludeId && {_id: {$ne:
excludeId}})})`: a falsy `excludeId` adds no id condition. -/
def clash (get : Category → String) (cats : List Category) (excl : Option String)
    (s : String) : Bool :=
  cats.any (fun c => get c == s &&
    (match excl with
     | some e => if e = "" then true else c.id != e
     | none => true))

/-- The `while (true)` probe loop, with enough fuel to scan one candidate per
existing document plus one: with `cats.length + 1` candidates and at most
`cats.length` occupied values the loop always exits inside the fuel. -/
def firstFree (taken : String → Bool) (cand : Nat → String) : Nat → Nat → String
  | 0, n => cand n
  | fuel + 1, n => if taken (cand n) then firstFree taken cand fuel (n + 1) else cand n

/-- `CategoryService.ensureUniqueSlug`. -/
def ensureUniqueSlug (cats : List Category) (slug : String) (excl : Option String) :
    String :=
  firstFree (clash (fun c => c.slug) cats excl) (slugCand slug) (cats.length + 1) 0

/-- `CategoryService.ensureUniqueKey`. -/
def ensureUniqueKey (cats : List Category) (key : String) (excl : Option String) :
    String :=
  firstFree (clash (fun c => c.key) cats excl) (keyCand key) (cats.length + 1) 0

/-! ### Schema validation run by `save()` (`models/Category.ts`) -/

/-- mongoose `match` validator (skipped on the empty string, which is instead
caught by `required`). -/
def matchOk (cls : Char → Bool) (s : String) : Bool :=
  s == "" || s.data.all cls

def slugClass (c : Char) : Bool :=
  ('a' ≤ c && c ≤ 'z') || ('0' ≤ c && c ≤ '9') || c = '-'

def keyClass (c : Char) : Bool :=
  ('a' ≤ c && c ≤ 'z') || ('0' ≤ c && c ≤ '9') || c = '_'

/-- `categorySchema` validation as run by `save()`: `required` fails on a
missing or empty string, `maxlength` bounds the name, `match` checks the
slug/key character classes.  Returns the first failure. -/
def validateCategory (c : Category) : Option String :=
  match c.name with
  | none => some "Category name is required"
  | some n =>
    if n = "" then some "Category name is required"
    else if n.length > 100 then some "Category name cannot exceed 100 characters"
    else if c.slug = "" then some "Category slug is required"
    else if !(matchOk slugClass c.slug) then
      some "Slug can only contain lowercase letters, numbers, and hyphens"
    else if c.key = "" then some "Category key is required"
    else if !(matchOk keyClass c.key) then
      some "Key can only contain lowercase letters, numbers, and underscores"
    else none

/-! ### `CategoryService` CRUD operations -/

/-- `CategoryService.getCategoryById` (the populate of parent/children is a
display concern and is not modelled: the raw record is returned). -/
def getCategoryById (st : StoreState) (id : String) : Option Category :=
  if !isValidObjectId id then none
  else findCat st.categories id

/-- `CategoryCreateData` (fields no claim mentions are omitted). -/
structure CategoryCreateData where
  name : Option String := none
  description : Option String := none
  parent : Option String := none
  name_en : Option String := none
  name_vi : Option String := none
  name_ko : Option String := none
  description_en : Option String := none
  description_vi : Option String := none
  description_ko : Option String := none
  isActive : Option Bool := none
  sortOrder : Option Int := none
  deriving Repr, DecidableEq

/-- `data.parent ? new mongoose.Types.ObjectId(data.parent) : null` — the
`ObjectId` constructor throws on a malformed id. -/
def resolveParentRef : Option String → Except String (Option String)
  | none => .ok none
  | some p =>
    if p = "" then .ok none
    else if isValidObjectId p then .ok (some p)
    else .error "BSONError: input must be a 24 character hex string"

/-- The document `new Category(categoryData)` builds: the resolved name (the
schema's `trim` setter applied), the de-duplicated slug/key, the coalesced
description, defaulted `isActive`/`sortOrder`, empty `children`. -/
def newCategoryDoc (st : StoreState) (freshId : String) (data : CategoryCreateData)
    (baseName : String) (parentRef : Option String) : Category :=
  { id := freshId
    name := some ⟨jsTrim baseName.data⟩
    slug := ensureUniqueSlug st.categories (generateSlug baseName) none
    key := ensureUniqueKey st.categories (generateKey baseName) none
    description := data.description <|> data.description_en
      <|> data.description_vi <|> data.description_ko
    name_en := data.name_en
    name_vi := data.name_vi
    name_ko := data.name_ko
    parent := parentRef
    children := []
    isActive := data.isActive.getD true
    sortOrder := data.sortOrder.getD 0 }

/-- `CategoryService.createCategory`.  `freshId` is the id the store assigns
to the inserted document. -/
def createCategory (st : StoreState) (freshId : String) (data : CategoryCreateData) :
    Except String Category × StoreState :=
  match data.name <|> data.name_en <|> data.name_vi <|> data.name_ko with
  | none => (.error "Category name is required", st)
  | some baseName =>
    if baseName = "" then (.error "Category name is required", st)
    else
      match resolveParentRef data.parent with
      | .error e => (.error e, st)
      | .ok parentRef =>
        let cat : Category := newCategoryDoc st freshId data baseName parentRef
        match validateCategory cat with
        | some e => (.error e, st)
        | none =>
          let st1 : StoreState := { st with categories := st.categories ++ [cat] }
          let withChild : Category → Category :=
            fun p => { p with children := addToSet p.children cat.id }
          let st2 : StoreState :=
            if optTruthy data.parent then
              { st1 with
                categories := updateById st1.categories (data.parent.getD "") withChild }
            else st1
          match getCategoryById st2 freshId with
          | some result => (.ok result, st2)
          | none => (.error "Failed to create category", st2)

/-- `CategoryUpdateData`.  `parent = none` means the field is absent from the
patch; `some ""` is the falsy string (clears the parent).  The code's
`null`-clearing of per-locale names writes `undefined`, which the store
ignores, so those fields are plain options here. -/
structure CategoryUpdateData where
  name : Option String := none
  parent : Option String := none
  name_en : Option String := none
  name_vi : Option String := none
  name_ko : Option String := none
  isActive : Option Bool := none
  sortOrder : Option Int := none
  deriving Repr, DecidableEq

/-- Apply the accumulated `updateData` patch to the stored document
(`findByIdAndUpdate(id, updateData, {new: true})`; update validators are not
enabled, so no schema validation runs here). -/
def patchCategory (c : Category) (nameUpd : Option (String × String × String))
    (data : CategoryUpdateData) (parentUpd : Option (Option String)) : Category :=
  { c with
    name := match nameUpd with
      | some (n, _, _) => some ⟨jsTrim n.data⟩
      | none => c.name
    slug := match nameUpd with
      | some (_, sl, _) => sl
      | none => c.slug
    key := match nameUpd with
      | some (_, _, k) => k
      | none => c.key
    name_en := data.name_en <|> c.name_en
    name_vi := data.name_vi <|> c.name_vi
    name_ko := data.name_ko <|> c.name_ko
    isActive := data.isActive.getD c.isActive
    sortOrder := data.sortOrder.getD c.sortOrder
    parent := match parentUpd with
      | some p => p
      | none => c.parent }

/-- `CategoryService.updateCategory`. -/
def updateCategory (st : StoreState) (id : String) (data : CategoryUpdateData) :
    Except String (Option Category) × StoreState :=
  if !isValidObjectId id then (.ok none, st)
  else
    match findCat st.categories id with
    | none => (.ok none, st)
    | some category =>
      let nameUpd : Option (String × String × String) :=
        match data.name <|> data.name_en <|> data.name_vi <|> data.name_ko with
        | some s =>
          if s = "" then none
          else some (s, ensureUniqueSlug st.categories (generateSlug s) (some id),
                     ensureUniqueKey st.categories (generateKey s) (some id))
        | none => none
      match data.parent with
      | none =>
        let final := updateById st.categories id
          (fun c => patchCategory c nameUpd data none)
        (.ok (findCat final id), { st with categories := final })
      | some newParent =>
        let cats1 :=
          match category.parent with
          | some oldp => updateById st.categories oldp
              (fun p => { p with children := pull p.children category.id })
          | none => st.categories
        if newParent = "" then
          let final := updateById cats1 id
            (fun c => patchCategory c nameUpd data (some none))
          (.ok (findCat final id), { st with categories := final })
        else if !isValidObjectId newParent then
          (.error "BSONError: input must be a 24 character hex string",
           { st with categories := cats1 })
        else
          let cats2 := updateById cats1 newParent
            (fun p => { p with children := addToSet p.children category.id })
          let final := updateById cats2 id
            (fun c => patchCategory c nameUpd data (some (some newParent)))
          (.ok (findCat final id), { st with categories := final })

/-- `CategoryService.deleteCategory`. -/
def deleteCategory (st : StoreState) (id : String) : Except String Bool × StoreState :=
  if !isValidObjectId id then (.ok false, st)
  else
    match findCat st.categories id with
    | none => (.ok false, st)
    | some category =>
      let childrenCount :=
        (st.categories.filter (fun c => c.parent == some category.id)).length
      if childrenCount > 0 then
        (.error "Cannot delete category with children. Please delete children first.", st)
      else
        let postsCount := (st.posts.filter (fun p => category.id ∈ p.categories)).length
        if postsCount > 0 then
          (.error "Cannot delete category with posts. Please reassign posts first.", st)
        else
          let cats1 :=
            match category.parent with
            | some oldp => updateById st.categories oldp
                (fun p => { p with children := pull p.children category.id })
            | none => st.categories
          (.ok true, { st with categories := cats1.filter (fun c => c.id != id) })

/-! ### The category tree (`getCategoryTree`) -/

/-- A node of the built tree: the category document plus its nested children
(the populated `children` arrays of the JS object graph). -/
inductive CatTree where
  | node (cat : Category) (children : List CatTree)

def CatTree.cat : CatTree → Category
  | .node c _ => c

def CatTree.kids : CatTree → List CatTree
  | .node _ ch => ch

/-- `getComparableName`: `node?.name ?? node?.name_en ?? node?.name_vi ??
node?.name_ko ?? ''`. -/
def getComparableName (c : Category) : String :=
  (c.name <|> c.name_en <|> c.name_vi <|> c.name_ko).getD ""

/-- Lexicographic three-way comparison of weight lists. -/
def listCmp : List Nat → List Nat → Int
  | [], [] => 0
  | [], _ :: _ => -1
  | _ :: _, [] => 1
  | a :: as, b :: bs => if a < b then -1 else if b < a then 1 else listCmp as bs

/-- Code-point lexicographic comparison of strings: the order of MongoDB's
binary sort on string fields (used by `dbLe`), and the "standard
lexicographic string ordering" that the specification's tie-break rule names.
It is NOT the order `String.prototype.localeCompare` computes; see
`localeCompare` below. -/
def strCmp (s t : String) : Int :=
  listCmp (s.data.map Char.toNat) (t.data.map Char.toNat)

/-- Primary collation weight of a character: ASCII uppercase letters are
weighted by their lowercase counterpart's code point, every other character
by its own code point, so the primary pass is case-insensitive and puts
digits before letters; the +1 shift keeps every weight strictly above the 0
sentinel of `collKey`. -/
def primaryKey (c : Char) : Nat :=
  if 65 ≤ c.toNat ∧ c.toNat ≤ 90 then c.toNat + 33 else c.toNat + 1

/-- Case (tertiary) collation weight: lowercase and caseless characters
before uppercase. -/
def caseKey (c : Char) : Nat :=
  if 65 ≤ c.toNat ∧ c.toNat ≤ 90 then 1 else 0

/-- Collation key of a string: all primary weights, then a 0 sentinel, then
all case weights. Comparing two keys lexicographically decides on the primary
weights first; only when the two primary sequences agree entirely — forcing
equal lengths, so the sentinels align — do the case weights act, left to
right. -/
def collKey (s : String) : List Nat :=
  s.data.map primaryKey ++ 0 :: s.data.map caseKey

/-- Model of `String.prototype.localeCompare` under the default locale (ICU
collation), on the ASCII strings this development evaluates it on: a
case-insensitive primary pass decides first, and strings equal up to letter
case are ordered by a lowercase-before-uppercase case pass. Thus
"a" < "B" < "b" and "iPhone" < "Zebra", where code-point order (`strCmp`)
gives the reverse in both cases. -/
def localeCompare (s t : String) : Int := listCmp (collKey s) (collKey t)

/-- The comparator passed to `nodes.sort` by `sortChildren`: `sortOrder`
difference first (`sortOrder` is always present on stored documents — the
schema defaults it to 0 — so the `?? 0` fallbacks are inlined away), then
`nameA.localeCompare(nameB)` on the comparable names. -/
def nodeCmp (a b : Category) : Int :=
  if a.sortOrder ≠ b.sortOrder then a.sortOrder - b.sortOrder
  else localeCompare (getComparableName a) (getComparableName b)

/-- Non-strict order induced by the comparator. -/
def treeLe (a b : CatTree) : Bool := decide (nodeCmp a.cat b.cat ≤ 0)

/-- Insertion into a `le`-sorted list. -/
def insertLe {α : Type} (le : α → α → Bool) (x : α) : List α → List α
  | [] => [x]
  | y :: ys => if le x y then x :: y :: ys else y :: insertLe le x ys

/-- Model of `Array.prototype.sort(cmp)`: any algorithm whose output is
sorted by the comparator. -/
def sortLe {α : Type} (le : α → α → Bool) : List α → List α
  | [] => []
  | x :: xs => insertLe le x (sortLe le xs)

mutual
/-- `sortChildren` applied to a single node: JS sorts a level first and then
recurses into each child; since the recursion never changes a node's own
record (only its children) and the comparator reads only the records, sorting
after the recursion yields the same list. -/
def sortTree : CatTree → CatTree
  | .node c ch => .node c (sortLe treeLe (sortForestMap ch))

def sortForestMap : List CatTree → List CatTree
  | [] => []
  | t :: ts => sortTree t :: sortForestMap ts
end

/-- `sortChildren(rootCategories)` on the root list. -/
def sortForest (l : List CatTree) : List CatTree := sortLe treeLe (sortForestMap l)

/-- The effect of the two linking passes of `getCategoryTree` and the shared
node objects: a node's children end up being exactly the loaded categories
whose truthy `parent` equals the node's id, in load order, recursively.
`fuel` bounds the depth: on the (ill-formed) cyclic stores that would make
the JS recursion diverge the model returns a truncated tree instead. -/
def subtreeF (cats : List Category) : Nat → Category → CatTree
  | 0, c => .node c []
  | fuel + 1, c =>
    .node c ((cats.filter (fun d => optTruthy d.parent && d.parent == some c.id)).map
      (subtreeF cats fuel))

/-- The Mongo pre-sort `{sortOrder: 1, name: 1}` (missing `name` sorts before
strings). -/
def dbLe (a b : Category) : Bool :=
  if a.sortOrder ≠ b.sortOrder then decide (a.sortOrder < b.sortOrder)
  else match a.name, b.name with
    | none, _ => true
    | some _, none => false
    | some x, some y => decide (strCmp x y ≤ 0)

/-- `CategoryService.getCategoryTree`. -/
def getCategoryTree (st : StoreState) (rootOnly includeInactive : Bool) :
    List CatTree :=
  let cats0 := st.categories.filter (fun c => includeInactive || c.isActive)
  let cats := sortLe dbLe cats0
  let roots := cats.filter (fun c => !optTruthy c.parent)
  let sorted := sortForest (roots.map (subtreeF cats cats.length))
  if rootOnly then sorted else sorted

mutual
/-- All category ids appearing in a tree. -/
def treeIds : CatTree → List String
  | .node c ch => c.id :: forestIds ch

def forestIds : List CatTree → List String
  | [] => []
  | t :: ts => treeIds t ++ forestIds ts
end

/-! ### Claim theorems -/

/-- C10: a string that is not a well-formed ObjectId is treated exactly like
a missing record: `getCategoryById` and `updateCategory` return null and
`deleteCategory` returns false, with the store untouched and no exception. -/
theorem c10_malformed_id_treated_as_not_found (st : StoreState) (id : String)
    (h : isValidObjectId id = false) :
    getCategoryById st id = none ∧
    (∀ data : CategoryUpdateData, updateCategory st id data = (.ok none, st)) ∧
    deleteCategory st id = (.ok false, st) := by
  refine ⟨?_, fun data => ?_, ?_⟩
  · simp [getCategoryById, h]
  · simp [updateCategory, h]
  · simp [deleteCategory, h]

theorem c10_witness :
    isValidObjectId "not-an-objectid" = false ∧
    getCategoryById ⟨[], []⟩ "not-an-objectid" = none ∧
    updateCategory ⟨[], []⟩ "not-an-objectid" {} = (.ok none, ⟨[], []⟩) ∧
    deleteCategory ⟨[], []⟩ "not-an-objectid" = (.ok false, ⟨[], []⟩) := by
  have h := c10_malformed_id_treated_as_not_found ⟨[], []⟩ "not-an-objectid" (by decide)
  exact ⟨by decide, h.1, h.2.1 {}, h.2.2⟩

/-- C9: creation is rejected with a validation error — and no record is
inserted (the returned store is the input store) — when the input has no
usable name (all name fields absent, or the resolved name is the falsy empty
string), and likewise when the resolved name derives to an empty slug (e.g.
punctuation only), since the schema's `required` validator rejects the empty
slug on `save()` before anything is written. -/
theorem c9_create_rejected_on_empty_name_or_slug :
    (∀ (st : StoreState) (fid : String) (data : CategoryCreateData),
      (data.name <|> data.name_en <|> data.name_vi <|> data.name_ko) = none ∨
      (data.name <|> data.name_en <|> data.name_vi <|> data.name_ko) = some "" →
      createCategory st fid data = (.error "Category name is required", st)) ∧
    (∀ (st : StoreState) (fid : String) (data : CategoryCreateData) (s : String),
      (data.name <|> data.name_en <|> data.name_vi <|> data.name_ko) = some s →
      s ≠ "" → generateSlug s = "" →
      (∀ c ∈ st.categories, c.slug ≠ "") →
      ∃ e, createCategory st fid data = (.error e, st)) := by
  constructor
  · intro st fid data h
    rcases h with h | h
    · simp [createCategory, h]
    · simp [createCategory, h]
  · intro st fid data s h1 hs hslug hstore
    have htaken : clash (fun c => c.slug) st.categories none (slugCand "" 0) = false := by
      simp only [clash, slugCand, List.any_eq_false]
      intro c hc
      simp [hstore c hc]
    have hsl : ensureUniqueSlug st.categories (generateSlug s) none = "" := by
      rw [hslug]
      show firstFree (clash (fun c => c.slug) st.categories none) (slugCand "")
        (st.categories.length + 1) 0 = ""
      rw [show firstFree (clash (fun c => c.slug) st.categories none) (slugCand "")
          (st.categories.length + 1) 0
          = if clash (fun c => c.slug) st.categories none (slugCand "" 0) = true then
              firstFree (clash (fun c => c.slug) st.categories none) (slugCand "")
                st.categories.length 1
            else slugCand "" 0 from rfl]
      rw [htaken]
      simp [slugCand]
    simp only [createCategory, h1]
    rw [if_neg hs]
    cases hpr : resolveParentRef data.parent with
    | error e =>
      exact ⟨e, by simp⟩
    | ok pr =>
      by_cases hn : (⟨jsTrim s.data⟩ : String) = ""
      · refine ⟨"Category name is required", ?_⟩
        simp [validateCategory, newCategoryDoc, hn]
      · by_cases hlen : 100 < (jsTrim s.data).length
        · refine ⟨"Category name cannot exceed 100 characters", ?_⟩
          simp [validateCategory, newCategoryDoc, hn, String.length, hlen]
        · refine ⟨"Category slug is required", ?_⟩
          simp [validateCategory, newCategoryDoc, hn, String.length, hlen, hsl]

theorem c9_witness :
    ((createCategory ⟨[], []⟩ "aaaaaaaaaaaaaaaaaaaaaaaa" { name := some "!!!" }
        = (.error "Category slug is required", ⟨[], []⟩)) ∧
      (createCategory ⟨[], []⟩ "aaaaaaaaaaaaaaaaaaaaaaaa" {}
        = (.error "Category name is required", ⟨[], []⟩))) := by
  constructor
  · obtain ⟨e, he⟩ := c9_create_rejected_on_empty_name_or_slug.2 ⟨[], []⟩
      "aaaaaaaaaaaaaaaaaaaaaaaa" { name := some "!!!" } "!!!" (by decide) (by decide)
      (by decide) (by intro c hc; simp at hc)
    have : e = "Category slug is required" := by
      have h2 : (createCategory ⟨[], []⟩ "aaaaaaaaaaaaaaaaaaaaaaaa"
          { name := some "!!!" }).1 = .error e := by rw [he]
      have h3 : (createCategory ⟨[], []⟩ "aaaaaaaaaaaaaaaaaaaaaaaa"
          { name := some "!!!" }).1 = .error "Category slug is required" := by decide
      rw [h2] at h3
      exact Except.error.inj h3
    rw [this] at he
    exact he
  · exact c9_create_rejected_on_empty_name_or_slug.1 ⟨[], []⟩
      "aaaaaaaaaaaaaaaaaaaaaaaa" {} (Or.inl rfl)

/-- Helper to build concrete category documents for witnesses. -/
def mkTestCat (id : String) (nm : String) (parent : Option String)
    (children : List String) (isActive : Bool) (sortOrder : Int) : Category :=
  { id := id, name := some nm, slug := nm, key := nm, description := none,
    name_en := none, name_vi := none, name_ko := none,
    parent := parent, children := children, isActive := isActive,
    sortOrder := sortOrder }

def oidA : String := "aaaaaaaaaaaaaaaaaaaaaaaa"
def oidB : String := "bbbbbbbbbbbbbbbbbbbbbbbb"
def oidC : String := "cccccccccccccccccccccccc"
def oidP : String := "0123456789abcdef01234567"

/-- C6: deleting a category that has a child (a category whose `parent`
references it) or a referencing post fails with a conflict error and the
store is returned unchanged (both guards run before any mutation); a
successful delete implies the category was childless and postless. -/
theorem c6_delete_conflict_guard :
    (∀ (st : StoreState) (id : String) (c : Category),
      isValidObjectId id = true →
      findCat st.categories id = some c →
      ((∃ d ∈ st.categories, d.parent = some c.id) ∨
       (∃ p ∈ st.posts, c.id ∈ p.categories)) →
      ∃ e, deleteCategory st id = (.error e, st)) ∧
    (∀ (st : StoreState) (id : String) (st' : StoreState),
      deleteCategory st id = (.ok true, st') →
      ∃ c, findCat st.categories id = some c ∧
        (∀ d ∈ st.categories, d.parent ≠ some c.id) ∧
        (∀ p ∈ st.posts, c.id ∉ p.categories)) := by
  constructor
  · intro st id c hv hf hconf
    by_cases h1 : 0 < (st.categories.filter (fun d => d.parent == some c.id)).length
    · refine ⟨"Cannot delete category with children. Please delete children first.", ?_⟩
      simp only [deleteCategory, hv, Bool.not_true, Bool.false_eq_true, if_false, hf]
      rw [if_pos h1]
    · rcases hconf with ⟨d, hd, hpar⟩ | ⟨p, hp, hmem⟩
      · exfalso
        apply h1
        apply List.length_pos_of_mem
        exact List.mem_filter.mpr ⟨hd, by simp [hpar]⟩
      · refine ⟨"Cannot delete category with posts. Please reassign posts first.", ?_⟩
        simp only [deleteCategory, hv, Bool.not_true, Bool.false_eq_true, if_false, hf]
        rw [if_neg h1, if_pos (List.length_pos_of_mem (List.mem_filter.mpr ⟨hp, by simp [hmem]⟩))]
  · intro st id st' h
    by_cases hv : isValidObjectId id = true
    · cases hf : findCat st.categories id with
      | none => simp [deleteCategory, hv, hf] at h
      | some c =>
        refine ⟨c, rfl, ?_⟩
        simp only [deleteCategory, hv, Bool.not_true, Bool.false_eq_true, if_false, hf] at h
        by_cases h1 : 0 < (st.categories.filter (fun d => d.parent == some c.id)).length
        · rw [if_pos h1] at h
          simp at h
        · rw [if_neg h1] at h
          by_cases h2 : 0 < (st.posts.filter (fun p => c.id ∈ p.categories)).length
          · rw [if_pos h2] at h
            simp at h
          · rw [if_neg h2] at h
            constructor
            · intro d hd hpar
              apply h1
              apply List.length_pos_of_mem
              exact List.mem_filter.mpr ⟨hd, by simp [hpar]⟩
            · intro p hp hmem
              apply h2
              apply List.length_pos_of_mem
              exact List.mem_filter.mpr ⟨hp, by simp [hmem]⟩
    · simp [deleteCategory, hv] at h

def c6Parent : Category := mkTestCat oidA "Parent" none [oidB] true 0
def c6Child : Category := mkTestCat oidB "Child" (some oidA) [] true 0
def c6St : StoreState := ⟨[c6Parent, c6Child], []⟩

theorem c6_witness :
    (∃ e, deleteCategory c6St oidA = (.error e, c6St)) ∧
    (∃ c, findCat c6St.categories oidB = some c ∧
      (∀ d ∈ c6St.categories, d.parent ≠ some c.id) ∧
      (∀ p ∈ c6St.posts, c.id ∉ p.categories)) := by
  constructor
  · exact c6_delete_conflict_guard.1 c6St oidA c6Parent (by decide) (by decide)
      (Or.inl ⟨c6Child, by decide, by decide⟩)
  · exact c6_delete_conflict_guard.2 c6St oidB
      ⟨[mkTestCat oidA "Parent" none [] true 0], []⟩ (by decide)

/-- The probe loop returns the first non-colliding candidate: if some
candidate within the fuel is free, the result is `cand k` for the least free
`k`, every earlier candidate having collided. -/
theorem firstFree_spec (taken : String → Bool) (cand : Nat → String) :
    ∀ (fuel start : Nat),
      (∃ k, k ≤ fuel ∧ taken (cand (start + k)) = false) →
      ∃ k, k ≤ fuel ∧ firstFree taken cand fuel start = cand (start + k) ∧
        taken (cand (start + k)) = false ∧
        (∀ j, j < k → taken (cand (start + j)) = true) := by
  intro fuel
  induction fuel with
  | zero =>
    intro start h
    obtain ⟨k, hk, hfree⟩ := h
    have hk0 : k = 0 := Nat.le_zero.mp hk
    subst hk0
    exact ⟨0, Nat.le_refl 0, rfl, hfree, fun j hj => absurd hj (Nat.not_lt_zero j)⟩
  | succ fuel ih =>
    intro start h
    cases ht : taken (cand start) with
    | true =>
      obtain ⟨k, hk, hfree⟩ := h
      cases k with
      | zero =>
        rw [Nat.add_zero, ht] at hfree
        exact absurd hfree (by simp)
      | succ k2 =>
        have hk2 : k2 ≤ fuel := Nat.succ_le_succ_iff.mp hk
        have hfree2 : taken (cand ((start + 1) + k2)) = false := by
          rw [show (start + 1) + k2 = start + (k2 + 1) by omega]
          exact hfree
        obtain ⟨m, hm, heq, hfreem, hall⟩ := ih (start + 1) ⟨k2, hk2, hfree2⟩
        refine ⟨m + 1, Nat.succ_le_succ hm, ?_, ?_, ?_⟩
        · simp only [firstFree, ht, if_pos rfl]
          rw [heq, show (start + 1) + m = start + (m + 1) by omega]
          simp
        · rw [show start + (m + 1) = (start + 1) + m by omega]
          exact hfreem
        · intro j hj
          cases j with
          | zero =>
            rw [Nat.add_zero]
            exact ht
          | succ j2 =>
            rw [show start + (j2 + 1) = (start + 1) + j2 by omega]
            exact hall j2 (by omega)
    | false =>
      refine ⟨0, Nat.zero_le _, ?_, ?_, fun j hj => absurd hj (Nat.not_lt_zero j)⟩
      · simp [firstFree, ht]
      · rw [Nat.add_zero]
        exact ht

/-- C4: colliding slugs/keys are resolved by appending `-1`, `-2`, ... resp.
`_1`, `_2`, ... with the counter starting at 1 (candidate `k` is `base` for
`k = 0` and `base-k` / `base_k` for `k ≥ 1`), taking the first non-colliding
candidate; allocation is a total function (collisions never surface as
errors), and two categories created with name "Products" on an empty store
receive slugs `products`, `products-1` and keys `products`, `products_1` in
call order. -/
theorem c4_slug_key_suffix_allocation :
    (∀ (cats : List Category) (base : String) (excl : Option String),
      (∃ k, k ≤ cats.length ∧
        clash (fun c => c.slug) cats excl (slugCand base k) = false) →
      ∃ k, ensureUniqueSlug cats base excl = slugCand base k ∧
        clash (fun c => c.slug) cats excl (slugCand base k) = false ∧
        (∀ j, j < k → clash (fun c => c.slug) cats excl (slugCand base j) = true)) ∧
    (∀ (cats : List Category) (base : String) (excl : Option String),
      (∃ k, k ≤ cats.length ∧
        clash (fun c => c.key) cats excl (keyCand base k) = false) →
      ∃ k, ensureUniqueKey cats base excl = keyCand base k ∧
        clash (fun c => c.key) cats excl (keyCand base k) = false ∧
        (∀ j, j < k → clash (fun c => c.key) cats excl (keyCand base j) = true)) ∧
    ((createCategory ⟨[], []⟩ oidA { name := some "Products" }).1.map
        (fun c => (c.slug, c.key)) = .ok ("products", "products") ∧
      ((createCategory
          ((createCategory ⟨[], []⟩ oidA { name := some "Products" }).2) oidB
          { name := some "Products" }).1.map (fun c => (c.slug, c.key)))
        = .ok ("products-1", "products_1")) := by
  refine ⟨?_, ?_, by decide, by decide⟩
  · intro cats base excl h
    obtain ⟨k, hk, hfree⟩ := h
    obtain ⟨m, _, heq, hfreem, hall⟩ := firstFree_spec
      (clash (fun c => c.slug) cats excl) (slugCand base) (cats.length + 1) 0
      ⟨k, by omega, by simpa using hfree⟩
    refine ⟨m, ?_, by simpa using hfreem, fun j hj => by simpa using hall j hj⟩
    simpa using heq
  · intro cats base excl h
    obtain ⟨k, hk, hfree⟩ := h
    obtain ⟨m, _, heq, hfreem, hall⟩ := firstFree_spec
      (clash (fun c => c.key) cats excl) (keyCand base) (cats.length + 1) 0
      ⟨k, by omega, by simpa using hfree⟩
    refine ⟨m, ?_, by simpa using hfreem, fun j hj => by simpa using hall j hj⟩
    simpa using heq

def c4Cat : Category :=
  { mkTestCat oidA "Products" none [] true 0 with slug := "products", key := "products" }

theorem c4_witness :
    (∃ k, ensureUniqueSlug [c4Cat] "products" none = slugCand "products" k ∧
      clash (fun c => c.slug) [c4Cat] none (slugCand "products" k) = false ∧
      (∀ j, j < k → clash (fun c => c.slug) [c4Cat] none (slugCand "products" j) = true)) ∧
    (∃ k, ensureUniqueKey [c4Cat] "products" none = keyCand "products" k ∧
      clash (fun c => c.key) [c4Cat] none (keyCand "products" k) = false ∧
      (∀ j, j < k → clash (fun c => c.key) [c4Cat] none (keyCand "products" j) = true)) := by
  constructor
  · exact c4_slug_key_suffix_allocation.1 [c4Cat] "products" none ⟨1, by decide, by decide⟩
  · exact c4_slug_key_suffix_allocation.2.1 [c4Cat] "products" none ⟨1, by decide, by decide⟩

/-! Store lemmas used by the referential-integrity claims. -/

theorem updateById_not_found (cats : List Category) (i : String)
    (f : Category → Category) (h : ∀ c ∈ cats, c.id ≠ i) :
    updateById cats i f = cats := by
  induction cats with
  | nil => rfl
  | cons c t ih =>
    simp only [updateById, List.map_cons]
    rw [if_neg (h c (by simp))]
    exact congrArg (List.cons c) (ih (fun d hd => h d (by simp [hd])))

theorem findCat_updateById (cats : List Category) (i : String)
    (f : Category → Category) (hid : ∀ c, (f c).id = c.id) :
    findCat (updateById cats i f) i = (findCat cats i).map f := by
  induction cats with
  | nil => rfl
  | cons c t ih =>
    by_cases hc : c.id = i
    · simp only [updateById, List.map_cons, if_pos hc, findCat, List.find?_cons]
      rw [show ((f c).id == i) = true by simp [hid c, hc],
        show (c.id == i) = true by simp [hc]]
      simp
    · simp only [updateById, List.map_cons, if_neg hc, findCat, List.find?_cons]
      rw [show (c.id == i) = false by simp [hc]]
      exact ih

theorem findCat_updateById_ne (cats : List Category) (i j : String)
    (f : Category → Category) (hid : ∀ c, (f c).id = c.id) (hne : j ≠ i) :
    findCat (updateById cats j f) i = findCat cats i := by
  induction cats with
  | nil => rfl
  | cons c t ih =>
    have hhead : (if c.id = j then f c else c).id = c.id := by
      by_cases hc : c.id = j <;> simp [hc, hid c]
    simp only [updateById, List.map_cons, findCat, List.find?_cons, hhead]
    cases hci : (c.id == i) with
    | true =>
      have hcj : ¬ c.id = j := by
        intro hcj
        have hi : c.id = i := by simpa using hci
        exact hne (hcj ▸ hi)
      simp [if_neg hcj]
    | false => exact ih

theorem updateById_ids (cats : List Category) (i : String)
    (f : Category → Category) (hid : ∀ c, (f c).id = c.id) :
    (updateById cats i f).map (fun c => c.id) = cats.map (fun c => c.id) := by
  induction cats with
  | nil => rfl
  | cons c t ih =>
    have hhead : (if c.id = i then f c else c).id = c.id := by
      by_cases hc : c.id = i <;> simp [hc, hid c]
    simp only [updateById, List.map_cons]
    rw [hhead]
    exact congrArg (List.cons c.id) ih

theorem findCat_append_fresh (cats : List Category) (x : Category) (i : String)
    (h : ∀ c ∈ cats, c.id ≠ i) :
    findCat (cats ++ [x]) i = findCat [x] i := by
  induction cats with
  | nil => rfl
  | cons c t ih =>
    simp only [findCat, List.cons_append, List.find?_cons]
    rw [show (c.id == i) = false by simp [h c (by simp)]]
    exact ih (fun d hd => h d (by simp [hd]))

/-- C2 counterexample: on the empty store (so the parent id `oidP` does not
reference any category), `createCategory` with `parent := oidP` SUCCEEDS and
stores the dangling reference — it is not rejected as the claim states. -/
theorem c2_counterexample :
    (∀ c ∈ (⟨[], []⟩ : StoreState).categories, c.id ≠ oidP) ∧
    ((createCategory ⟨[], []⟩ oidA
        { name := some "Child", parent := some oidP }).1.map (fun c => c.parent)
      = .ok (some oidP)) := by
  constructor
  · intro c hc
    simp at hc
  · decide

theorem updateById_append_fresh (cats : List Category) (x : Category) (P : String)
    (f : Category → Category) (h1 : ∀ c ∈ cats, c.id ≠ P) (h2 : x.id ≠ P) :
    updateById (cats ++ [x]) P f = cats ++ [x] := by
  apply updateById_not_found
  intro c hc
  rcases List.mem_append.mp hc with h | h
  · exact h1 c h
  · simp only [List.mem_singleton] at h
    subst h
    exact h2

theorem findCat_append_self (cats : List Category) (x : Category) (i : String)
    (h1 : ∀ c ∈ cats, c.id ≠ i) (h2 : x.id = i) :
    findCat (cats ++ [x]) i = some x := by
  rw [findCat_append_fresh cats x i h1]
  simp [findCat, List.find?, h2]

theorem patchCategory_id (c : Category) (n : Option (String × String × String))
    (d : CategoryUpdateData) (p : Option (Option String)) :
    (patchCategory c n d p).id = c.id := rfl

/-- C2 amended: a create or update naming a well-formed parent id that does
not reference any existing category is NOT rejected — it succeeds and stores
the dangling `parent` reference; the `findByIdAndUpdate` on the missing
parent is a silent no-op (the resulting store is exactly the old documents
plus the new one). -/
theorem c2_amended_nonexistent_parent_accepted :
    (∀ (st : StoreState) (fid : String) (data : CategoryCreateData) (P : String)
        (cat : Category) (st' : StoreState),
      data.parent = some P → P ≠ "" →
      (∀ c ∈ st.categories, c.id ≠ P) →
      (∀ c ∈ st.categories, c.id ≠ fid) →
      fid ≠ P → isValidObjectId fid = true →
      createCategory st fid data = (.ok cat, st') →
      cat.parent = some P ∧ cat.id = fid ∧
        st'.categories = st.categories ++ [cat] ∧ st'.posts = st.posts) ∧
    (∀ (st : StoreState) (id : String) (data : CategoryUpdateData) (Q : String)
        (cat : Category) (st' : StoreState),
      data.parent = some Q → Q ≠ "" →
      (∀ c ∈ st.categories, c.id ≠ Q) →
      updateCategory st id data = (.ok (some cat), st') →
      cat.parent = some Q) := by
  constructor
  · intro st fid data P cat st' hp hpne hnoP hfresh hfp hvfid h
    cases hn : (data.name <|> data.name_en <|> data.name_vi <|> data.name_ko) with
    | none => simp [createCategory, hn] at h
    | some s =>
      by_cases hs : s = ""
      · simp [createCategory, hn, hs] at h
      · cases hvP : isValidObjectId P with
        | false =>
          simp [createCategory, hn, hs, hp, resolveParentRef, hpne, hvP] at h
        | true =>
          simp only [createCategory, hn, hs, hp, resolveParentRef, hpne, hvP,
            if_neg, if_pos, ite_true, ite_false, if_false, if_true] at h
          split at h
          · simp at h
          · rw [show optTruthy (some P) = true by simp [optTruthy, hpne]] at h
            simp only [if_pos rfl, if_true, ite_true, Option.getD_some] at h
            rw [updateById_append_fresh st.categories
              (newCategoryDoc st fid data s (some P)) P _ hnoP hfp] at h
            have hg : getCategoryById
                ⟨st.categories ++ [newCategoryDoc st fid data s (some P)], st.posts⟩ fid
                = some (newCategoryDoc st fid data s (some P)) := by
              unfold getCategoryById
              rw [hvfid]
              simp only [Bool.not_true, Bool.false_eq_true, if_false]
              exact findCat_append_self st.categories _ fid hfresh rfl
            rw [hg] at h
            rw [Prod.mk.injEq] at h
            obtain ⟨h1, h2⟩ := h
            rw [Except.ok.injEq] at h1
            subst h1
            subst h2
            exact ⟨rfl, rfl, rfl, rfl⟩
  · intro st id data Q cat st' hq hqne hnoQ h
    cases hv : isValidObjectId id with
    | false => simp [updateCategory, hv] at h
    | true =>
      cases hf : findCat st.categories id with
      | none => simp [updateCategory, hv, hf] at h
      | some c =>
        simp only [updateCategory, hv, hf, hq, Bool.not_true, Bool.false_eq_true,
          if_false] at h
        rw [if_neg hqne] at h
        cases hvQ : isValidObjectId Q with
        | false => rw [hvQ] at h; simp at h
        | true =>
          rw [hvQ] at h
          simp only [Bool.not_true, Bool.false_eq_true, if_false] at h
          rw [findCat_updateById _ id _ (fun d => patchCategory_id d _ _ _)] at h
          rw [Prod.mk.injEq] at h
          obtain ⟨h1, _⟩ := h
          rw [Except.ok.injEq] at h1
          cases hfc : findCat (updateById (match c.parent with
              | some oldp => updateById st.categories oldp
                  (fun p => { p with children := pull p.children c.id })
              | none => st.categories) Q
              (fun p => { p with children := addToSet p.children c.id })) id with
          | none => rw [hfc] at h1; simp at h1
          | some d =>
            rw [hfc] at h1
            simp only [Option.map_some'] at h1
            rw [Option.some.injEq] at h1
            subst h1
            rfl

def c2Cat : Category :=
  { id := oidA, name := some "Child", slug := "child", key := "child",
    description := none, name_en := none, name_vi := none, name_ko := none,
    parent := some oidP, children := [], isActive := true, sortOrder := 0 }

def c2uCat : Category := mkTestCat oidA "x" none [] true 0

theorem c2_witness :
    (c2Cat.parent = some oidP ∧ c2Cat.id = oidA ∧
      (⟨[c2Cat], []⟩ : StoreState).categories
        = (⟨[], []⟩ : StoreState).categories ++ [c2Cat] ∧
      (⟨[c2Cat], []⟩ : StoreState).posts = (⟨[], []⟩ : StoreState).posts) ∧
    ({ c2uCat with parent := some oidP } : Category).parent = some oidP := by
  constructor
  · exact c2_amended_nonexistent_parent_accepted.1 ⟨[], []⟩ oidA
      { name := some "Child", parent := some oidP } oidP c2Cat ⟨[c2Cat], []⟩
      rfl (by decide) (by intro c hc; simp at hc) (by intro c hc; simp at hc)
      (by decide) (by decide) (by decide)
  · exact c2_amended_nonexistent_parent_accepted.2 ⟨[c2uCat], []⟩ oidA
      { parent := some oidP } oidP { c2uCat with parent := some oidP }
      ⟨[{ c2uCat with parent := some oidP }], []⟩
      rfl (by decide) (by decide) (by decide)

theorem findCat_some_id (cats : List Category) (i : String) (c : Category)
    (h : findCat cats i = some c) : c.id = i := by
  have h2 := List.find?_some h
  simpa using h2

def c8Cat : Category := mkTestCat oidA "x" none [] true 0

/-- C8 counterexample: on a store with the single category `c8Cat`, the
update setting its parent to itself is NOT rejected: it returns the updated
category with `parent` equal to its own id, and the stored document now is
its own (transitive) ancestor. -/
theorem c8_counterexample :
    ((updateCategory ⟨[c8Cat], []⟩ oidA { parent := some oidA }).1.map
        (fun o => o.map (fun c => c.parent))) = .ok (some (some oidA)) ∧
    (findCat (updateCategory ⟨[c8Cat], []⟩ oidA
        { parent := some oidA }).2.categories oidA).map (fun c => (c.parent, c.children))
      = some (some oidA, [oidA]) := by
  constructor
  · decide
  · decide

/-- C8 amended: `updateCategory` performs no cycle check.  For every stored
category, a patch whose `parent` is the category's own id succeeds: the
result and the stored document have `parent = id` (the category becomes its
own ancestor), rather than the update being rejected. -/
theorem c8_amended_self_parent_accepted :
    ∀ (st : StoreState) (id : String) (data : CategoryUpdateData) (c : Category),
      isValidObjectId id = true →
      findCat st.categories id = some c →
      data.parent = some id → id ≠ "" →
      ∃ cat st', updateCategory st id data = (.ok (some cat), st') ∧
        cat.parent = some id ∧ cat.id = id ∧
        findCat st'.categories id = some cat := by
  intro st id data c hv hf hq hne
  have hpull : ∀ x : Category,
      ({ x with children := pull x.children c.id } : Category).id = x.id :=
    fun x => rfl
  have hadd : ∀ x : Category,
      ({ x with children := addToSet x.children c.id } : Category).id = x.id :=
    fun x => rfl
  obtain ⟨c1, hfc1⟩ : ∃ c1, findCat (match c.parent with
      | some oldp => updateById st.categories oldp
          (fun p => { p with children := pull p.children c.id })
      | none => st.categories) id = some c1 := by
    cases hcp : c.parent with
    | none => exact ⟨c, hf⟩
    | some oldp =>
      by_cases hop : oldp = id
      · subst hop
        refine ⟨{ c with children := pull c.children c.id }, ?_⟩
        rw [findCat_updateById _ _ _ hpull, hf]
        rfl
      · exact ⟨c, by rw [findCat_updateById_ne _ _ _ _ hpull hop, hf]⟩
  simp only [updateCategory, hv, hf, hq, Bool.not_true, Bool.false_eq_true, if_false]
  rw [if_neg hne]
  rw [findCat_updateById _ id _ (fun d => patchCategory_id d _ _ _),
    findCat_updateById _ id _ hadd, hfc1]
  refine ⟨_, _, rfl, rfl, ?_, ?_⟩
  · rw [patchCategory_id]
    exact (hadd c1).trans (findCat_some_id _ _ _ hfc1)
  · rw [findCat_updateById _ id _ (fun d => patchCategory_id d _ _ _),
      findCat_updateById _ id _ hadd, hfc1]
    rfl

theorem c8_witness :
    ∃ cat st', updateCategory ⟨[c8Cat], []⟩ oidA { parent := some oidA }
        = (.ok (some cat), st') ∧
      cat.parent = some oidA ∧ cat.id = oidA ∧
      findCat st'.categories oidA = some cat :=
  c8_amended_self_parent_accepted ⟨[c8Cat], []⟩ oidA { parent := some oidA } c8Cat
    (by decide) (by decide) rfl (by decide)

theorem findCat_append_left (cats cats2 : List Category) (i : String) (x : Category)
    (h : findCat cats i = some x) : findCat (cats ++ cats2) i = some x := by
  induction cats with
  | nil => simp [findCat] at h
  | cons c t ih =>
    simp only [findCat, List.cons_append, List.find?_cons] at h ⊢
    cases hc : (c.id == i) with
    | true =>
      rw [hc] at h
      exact h
    | false =>
      rw [hc] at h
      exact ih h

theorem mem_addToSet_self (l : List String) (x : String) : x ∈ addToSet l x := by
  unfold addToSet
  by_cases hx : x ∈ l
  · rw [if_pos hx]
    exact hx
  · rw [if_neg hx]
    simp

theorem not_mem_pull (l : List String) (x : String) : x ∉ pull l x := by
  unfold pull
  intro hx
  have := List.of_mem_filter hx
  simp at this

theorem findCat_filter (cats : List Category) (q : Category → Bool) (i : String)
    (h : ∀ x ∈ cats, (x.id == i) = true → q x = true) :
    findCat (cats.filter q) i = findCat cats i := by
  induction cats with
  | nil => rfl
  | cons c t ih =>
    have ih2 := ih (fun x hx hxi => h x (by simp [hx]) hxi)
    by_cases hq : q c = true
    · rw [List.filter_cons, if_pos hq]
      show List.find? (fun d => d.id == i) (c :: t.filter q)
          = List.find? (fun d => d.id == i) (c :: t)
      rw [List.find?_cons, List.find?_cons]
      cases hc : (c.id == i) with
      | true => rfl
      | false => exact ih2
    · have hc : (c.id == i) = false := by
        cases hcc : (c.id == i) with
        | true => exact absurd (h c (by simp) hcc) hq
        | false => rfl
      rw [List.filter_cons, if_neg hq]
      show findCat (t.filter q) i = List.find? (fun d => d.id == i) (c :: t)
      rw [List.find?_cons, hc]
      exact ih2

/-- C7: the parent/children cross-references stay consistent under the three
mutations.  (1) After a successful create with an existing parent `P`, the
new record's `parent` is `P` and `P`'s stored `children` contains the new id.
(2) After a successful re-parent from `P` to `Q`, `P`'s `children` no longer
contains the id and `Q`'s does.  (3) After a successful delete, the former
parent's `children` no longer contains the deleted id. -/
theorem c7_parent_children_consistency :
    (∀ (st : StoreState) (fid : String) (data : CategoryCreateData) (P : String)
        (pc cat : Category) (st' : StoreState),
      data.parent = some P → P ≠ "" →
      findCat st.categories P = some pc →
      (∀ c ∈ st.categories, c.id ≠ fid) →
      fid ≠ P → isValidObjectId fid = true →
      createCategory st fid data = (.ok cat, st') →
      cat.parent = some P ∧ cat.id = fid ∧
        ∃ pc', findCat st'.categories P = some pc' ∧ fid ∈ pc'.children) ∧
    (∀ (st : StoreState) (id : String) (data : CategoryUpdateData)
        (P Q : String) (c pc qc : Category),
      isValidObjectId id = true →
      findCat st.categories id = some c → c.parent = some P →
      data.parent = some Q → Q ≠ "" → isValidObjectId Q = true →
      P ≠ Q → id ≠ P → id ≠ Q →
      findCat st.categories P = some pc → findCat st.categories Q = some qc →
      (∀ pc', findCat (updateCategory st id data).2.categories P = some pc' →
        id ∉ pc'.children) ∧
      (∃ qc', findCat (updateCategory st id data).2.categories Q = some qc' ∧
        id ∈ qc'.children)) ∧
    (∀ (st : StoreState) (id : String) (P : String) (c pc : Category)
        (st' : StoreState),
      findCat st.categories id = some c → c.parent = some P → P ≠ id →
      findCat st.categories P = some pc →
      deleteCategory st id = (.ok true, st') →
      ∀ pc', findCat st'.categories P = some pc' → id ∉ pc'.children) := by
  refine ⟨?_, ?_, ?_⟩
  · intro st fid data P pc cat st' hp hpne hfP hfresh hfp hvfid h
    have haddid : ∀ x : Category,
        ({ x with children := addToSet x.children fid } : Category).id = x.id :=
      fun x => rfl
    cases hn : (data.name <|> data.name_en <|> data.name_vi <|> data.name_ko) with
    | none => simp [createCategory, hn] at h
    | some s =>
      by_cases hs : s = ""
      · simp [createCategory, hn, hs] at h
      · cases hvP : isValidObjectId P with
        | false =>
          simp [createCategory, hn, hs, hp, resolveParentRef, hpne, hvP] at h
        | true =>
          simp only [createCategory, hn, hs, hp, resolveParentRef, hpne, hvP,
            if_neg, if_pos, ite_true, ite_false, if_false, if_true] at h
          split at h
          · simp at h
          · rw [show optTruthy (some P) = true by simp [optTruthy, hpne]] at h
            simp only [if_pos rfl, if_true, ite_true, Option.getD_some] at h
            have hg : getCategoryById
                ⟨updateById (st.categories ++ [newCategoryDoc st fid data s (some P)]) P
                  (fun p =>
                    { p with children := addToSet p.children (newCategoryDoc st fid data s (some P)).id }),
                  st.posts⟩ fid
                = some (newCategoryDoc st fid data s (some P)) := by
              unfold getCategoryById
              rw [hvfid]
              simp only [Bool.not_true, Bool.false_eq_true, if_false]
              rw [findCat_updateById_ne _ fid P _ (by intro x; rfl) (fun hh => hfp hh.symm)]
              exact findCat_append_self st.categories _ fid hfresh rfl
            rw [hg] at h
            rw [Prod.mk.injEq] at h
            obtain ⟨h1, h2⟩ := h
            rw [Except.ok.injEq] at h1
            subst h1
            subst h2
            refine ⟨rfl, rfl, ?_⟩
            refine ⟨{ pc with children := addToSet pc.children fid }, ?_, ?_⟩
            · show findCat (updateById
                (st.categories ++ [newCategoryDoc st fid data s (some P)]) P
                (fun p =>
                  { p with children := addToSet p.children (newCategoryDoc st fid data s (some P)).id })) P
                = _
              rw [findCat_updateById _ P _ (by intro x; rfl),
                findCat_append_left st.categories _ P pc hfP]
              rfl
            · exact mem_addToSet_self pc.children fid
  · intro st id data P Q c pc qc hv hf hcp hq hqne hvQ hPQ hiP hiQ hfP hfQ
    have hpullid : ∀ x : Category,
        ({ x with children := pull x.children c.id } : Category).id = x.id :=
      fun x => rfl
    have haddid : ∀ x : Category,
        ({ x with children := addToSet x.children c.id } : Category).id = x.id :=
      fun x => rfl
    have hcid : c.id = id := findCat_some_id _ _ _ hf
    simp only [updateCategory, hv, hvQ, hf, hq, hcp, Bool.not_true,
      Bool.false_eq_true, if_false]
    rw [if_neg hqne]
    constructor
    · intro pc' hpc'
      rw [findCat_updateById_ne _ P id _ (fun d => patchCategory_id d _ _ _) hiP,
        findCat_updateById_ne _ P Q _ haddid (fun hh => hPQ hh.symm),
        findCat_updateById _ P _ hpullid, hfP, Option.map_some'] at hpc'
      rw [Option.some.injEq] at hpc'
      subst hpc'
      show id ∉ pull pc.children c.id
      rw [hcid]
      exact not_mem_pull pc.children id
    · refine ⟨{ qc with children := addToSet qc.children c.id }, ?_, ?_⟩
      · rw [findCat_updateById_ne _ Q id _ (fun d => patchCategory_id d _ _ _) hiQ,
          findCat_updateById _ Q _ haddid,
          findCat_updateById_ne _ Q P _ hpullid hPQ, hfQ]
        rfl
      · show id ∈ addToSet qc.children c.id
        rw [hcid]
        exact mem_addToSet_self qc.children id
  · intro st id P c pc st' hf hcp hPid hfP h
    have hpullid : ∀ x : Category,
        ({ x with children := pull x.children c.id } : Category).id = x.id :=
      fun x => rfl
    have hcid : c.id = id := findCat_some_id _ _ _ hf
    by_cases hv : isValidObjectId id = true
    · simp only [deleteCategory, hv, Bool.not_true, Bool.false_eq_true, if_false,
        hf, hcp] at h
      by_cases h1 : 0 < (st.categories.filter (fun d => d.parent == some c.id)).length
      · rw [if_pos h1] at h
        simp at h
      · rw [if_neg h1] at h
        by_cases h2 : 0 < (st.posts.filter (fun p => c.id ∈ p.categories)).length
        · rw [if_pos h2] at h
          simp at h
        · rw [if_neg h2] at h
          rw [Prod.mk.injEq] at h
          obtain ⟨-, hst⟩ := h
          intro pc' hpc'
          rw [← hst] at hpc'
          have hsurv : ∀ x ∈ updateById st.categories P
              (fun p => { p with children := pull p.children c.id }),
              (x.id == P) = true → (x.id != id) = true := by
            intro x hx hxi
            have : x.id = P := by simpa using hxi
            simp [this, fun hh => hPid hh]
          have hred : (({ categories := (updateById st.categories P (fun p => { p with children := pull p.children c.id })).filter (fun d => d.id != id), posts := st.posts } : StoreState)).categories = (updateById st.categories P (fun p => { p with children := pull p.children c.id })).filter (fun d => d.id != id) := rfl
          rw [hred] at hpc'
          rw [findCat_filter _ _ P hsurv,
            findCat_updateById _ P _ hpullid, hfP, Option.map_some'] at hpc'
          rw [Option.some.injEq] at hpc'
          subst hpc'
          show id ∉ pull pc.children c.id
          rw [hcid]
          exact not_mem_pull pc.children id
    · simp [deleteCategory, hv] at h

def c7P : Category := mkTestCat oidP "Parent" none [] true 0
def c7NewCat : Category :=
  { id := oidA, name := some "Child", slug := "child", key := "child",
    description := none, name_en := none, name_vi := none, name_ko := none,
    parent := some oidP, children := [], isActive := true, sortOrder := 0 }
def c7rC : Category := mkTestCat oidA "C" (some oidB) [] true 0
def c7rP : Category := mkTestCat oidB "P" none [oidA] true 0
def c7rQ : Category := mkTestCat oidC "Q" none [] true 0
def c7St2 : StoreState := ⟨[c7rC, c7rP, c7rQ], []⟩

theorem c7_witness :
    (c7NewCat.parent = some oidP ∧ c7NewCat.id = oidA ∧
      ∃ pc', findCat (⟨[{ c7P with children := [oidA] }, c7NewCat], []⟩ :
          StoreState).categories oidP = some pc' ∧ oidA ∈ pc'.children) ∧
    ((∀ pc', findCat (updateCategory c7St2 oidA { parent := some oidC }).2.categories
        oidB = some pc' → oidA ∉ pc'.children) ∧
      (∃ qc', findCat (updateCategory c7St2 oidA { parent := some oidC }).2.categories
        oidC = some qc' ∧ oidA ∈ qc'.children)) ∧
    (∀ pc', findCat (⟨[{ c7rP with children := [] }], []⟩ :
        StoreState).categories oidB = some pc' → oidA ∉ pc'.children) := by
  refine ⟨?_, ?_, ?_⟩
  · exact c7_parent_children_consistency.1 ⟨[c7P], []⟩ oidA
      { name := some "Child", parent := some oidP } oidP c7P c7NewCat
      ⟨[{ c7P with children := [oidA] }, c7NewCat], []⟩
      rfl (by decide) (by decide) (by decide) (by decide) (by decide) (by decide)
  · exact c7_parent_children_consistency.2.1 c7St2 oidA { parent := some oidC }
      oidB oidC c7rC c7rP c7rQ (by decide) (by decide) (by decide) rfl (by decide)
      (by decide) (by decide) (by decide) (by decide) (by decide) (by decide)
  · exact c7_parent_children_consistency.2.2 ⟨[c7rC, c7rP], []⟩ oidA oidB c7rC c7rP
      ⟨[{ c7rP with children := [] }], []⟩ (by decide) (by decide) (by decide)
      (by decide) (by decide)

/-! Comparator lemmas for the tree-sort claim. -/

theorem listCmp_neg (x : List Nat) : ∀ y : List Nat, listCmp y x = -listCmp x y := by
  induction x with
  | nil =>
    intro y
    cases y <;> simp [listCmp]
  | cons a as ih =>
    intro y
    cases y with
    | nil => simp [listCmp]
    | cons b bs =>
      rcases lt_trichotomy a b with h | h | h
      · have h2 : ¬ b < a := not_lt_of_gt h
        simp [listCmp, h, h2, not_lt_of_gt h]
      · subst h
        simp [listCmp, lt_irrefl, ih bs]
      · have h2 : ¬ a < b := not_lt_of_gt h
        simp [listCmp, h, h2]

theorem listCmp_trans (x : List Nat) : ∀ y z : List Nat,
    listCmp x y ≤ 0 → listCmp y z ≤ 0 → listCmp x z ≤ 0 := by
  induction x with
  | nil =>
    intro y z h1 h2
    cases z <;> simp [listCmp]
  | cons a as ih =>
    intro y z h1 h2
    cases y with
    | nil => simp [listCmp] at h1
    | cons b bs =>
      cases z with
      | nil => simp [listCmp] at h2
      | cons c cs =>
        by_cases hab : a < b
        · by_cases hbc : b < c
          · simp [listCmp, lt_trans hab hbc]
          · by_cases hcb : c < b
            · simp [listCmp, hbc, hcb] at h2
            · have hbc2 : b = c := le_antisymm (not_lt.mp hcb) (not_lt.mp hbc)
              subst hbc2
              simp [listCmp, hab, not_lt_of_gt hab]
        · by_cases hba : b < a
          · simp [listCmp, hab, hba] at h1
          · have hab2 : a = b := le_antisymm (not_lt.mp hba) (not_lt.mp hab)
            subst hab2
            simp only [listCmp, lt_irrefl, if_neg (lt_irrefl a)] at h1
            by_cases hac : a < c
            · simp [listCmp, hac]
            · by_cases hca : c < a
              · simp [listCmp, hac, hca] at h2
              · have hac2 : a = c := le_antisymm (not_lt.mp hca) (not_lt.mp hac)
                subst hac2
                simp only [listCmp, lt_irrefl, if_neg (lt_irrefl a)] at h2 ⊢
                exact ih bs cs h1 h2

theorem nodeCmp_neg (a b : Category) : nodeCmp b a = -nodeCmp a b := by
  unfold nodeCmp
  by_cases h : a.sortOrder = b.sortOrder
  · rw [h, if_neg (fun hh => hh rfl), if_neg (fun hh => hh rfl)]
    exact listCmp_neg _ _
  · rw [if_pos (fun hh => h hh.symm), if_pos h]
    omega

theorem nodeCmp_trans (a b c : Category) (h1 : nodeCmp a b ≤ 0) (h2 : nodeCmp b c ≤ 0) :
    nodeCmp a c ≤ 0 := by
  unfold nodeCmp at h1 h2 ⊢
  by_cases hab : a.sortOrder = b.sortOrder
  · by_cases hbc : b.sortOrder = c.sortOrder
    · rw [if_neg (by rw [hab, hbc]; exact fun hh => hh rfl)]
      rw [if_neg (fun hh => hh hab)] at h1
      rw [if_neg (fun hh => hh hbc)] at h2
      exact listCmp_trans _ _ _ h1 h2
    · rw [if_pos hbc] at h2
      rw [if_pos (fun hh => hbc (hab ▸ hh))]
      omega
  · rw [if_pos hab] at h1
    by_cases hbc : b.sortOrder = c.sortOrder
    · rw [if_pos (fun hh => hab (hbc ▸ hh))]
      omega
    · rw [if_pos hbc] at h2
      by_cases hac : a.sortOrder = c.sortOrder
      · omega
      · rw [if_pos hac]
        omega

/-! Sortedness of the insertion sort modelling `Array.prototype.sort`. -/

theorem mem_insertLe {α : Type} (le : α → α → Bool) (x : α) (l : List α) (y : α) :
    y ∈ insertLe le x l ↔ y = x ∨ y ∈ l := by
  induction l with
  | nil => simp [insertLe]
  | cons z zs ih =>
    by_cases h : le x z = true
    · simp [insertLe, h]
    · simp [insertLe, h, ih]
      tauto

theorem mem_sortLe {α : Type} (le : α → α → Bool) (l : List α) (y : α) :
    y ∈ sortLe le l ↔ y ∈ l := by
  induction l with
  | nil => simp [sortLe]
  | cons z zs ih =>
    simp [sortLe, mem_insertLe, ih]

theorem pairwise_insertLe {α : Type} (le : α → α → Bool)
    (htot : ∀ a b, le a b = true ∨ le b a = true)
    (htrans : ∀ a b c, le a b = true → le b c = true → le a c = true)
    (x : α) (l : List α) (h : l.Pairwise (fun a b => le a b = true)) :
    (insertLe le x l).Pairwise (fun a b => le a b = true) := by
  induction l with
  | nil => simp [insertLe]
  | cons y ys ih =>
    rw [List.pairwise_cons] at h
    by_cases hxy : le x y = true
    · rw [show insertLe le x (y :: ys) = x :: y :: ys by simp [insertLe, hxy]]
      rw [List.pairwise_cons]
      refine ⟨?_, List.pairwise_cons.mpr h⟩
      intro z hz
      rcases List.mem_cons.mp hz with hzy | hzys
      · subst hzy
        exact hxy
      · exact htrans x y z hxy (h.1 z hzys)
    · rw [show insertLe le x (y :: ys) = y :: insertLe le x ys by simp [insertLe, hxy]]
      rw [List.pairwise_cons]
      constructor
      · intro z hz
        rcases (mem_insertLe le x ys z).mp hz with hzx | hzys
        · rw [hzx]
          rcases htot x y with h1 | h1
          · exact absurd h1 hxy
          · exact h1
        · exact h.1 z hzys
      · exact ih h.2

theorem pairwise_sortLe {α : Type} (le : α → α → Bool)
    (htot : ∀ a b, le a b = true ∨ le b a = true)
    (htrans : ∀ a b c, le a b = true → le b c = true → le a c = true)
    (l : List α) : (sortLe le l).Pairwise (fun a b => le a b = true) := by
  induction l with
  | nil => simp [sortLe]
  | cons z zs ih => exact pairwise_insertLe le htot htrans z (sortLe le zs) ih

theorem treeLe_total (a b : CatTree) : treeLe a b = true ∨ treeLe b a = true := by
  unfold treeLe
  rcases le_or_lt (nodeCmp a.cat b.cat) 0 with h | h
  · left
    simpa using h
  · right
    have := nodeCmp_neg a.cat b.cat
    simp only [decide_eq_true_eq]
    omega

theorem treeLe_trans (a b c : CatTree) (h1 : treeLe a b = true)
    (h2 : treeLe b c = true) : treeLe a c = true := by
  unfold treeLe at h1 h2 ⊢
  simp only [decide_eq_true_eq] at h1 h2 ⊢
  exact nodeCmp_trans _ _ _ h1 h2

/-- The sibling order the service's comparator induces: `sortOrder`
ascending, ties broken by the best-available display name under
default-locale `localeCompare`. -/
def nodeLeProp (a b : CatTree) : Prop :=
  a.cat.sortOrder < b.cat.sortOrder ∨
    (a.cat.sortOrder = b.cat.sortOrder ∧
      localeCompare (getComparableName a.cat) (getComparableName b.cat) ≤ 0)

theorem treeLe_iff_nodeLeProp (a b : CatTree) : treeLe a b = true ↔ nodeLeProp a b := by
  unfold treeLe nodeLeProp nodeCmp
  by_cases h : a.cat.sortOrder = b.cat.sortOrder
  · rw [if_neg (fun hh => hh h)]
    simp [h]
  · rw [if_pos h]
    simp only [decide_eq_true_eq]
    constructor
    · intro hle
      left
      omega
    · intro hor
      rcases hor with hlt | ⟨heq, _⟩
      · omega
      · exact absurd heq h

/-- Every level of the tree is sorted by the sibling order. -/
inductive TreeSorted : CatTree → Prop where
  | node {c : Category} {ch : List CatTree} :
      ch.Pairwise nodeLeProp → (∀ t ∈ ch, TreeSorted t) →
      TreeSorted (.node c ch)

theorem mem_sortForestMap (l : List CatTree) (u : CatTree) :
    u ∈ sortForestMap l ↔ ∃ v ∈ l, u = sortTree v := by
  induction l with
  | nil => simp [sortForestMap]
  | cons t ts ih =>
    simp [sortForestMap, ih]

theorem catTree_sizeOf_pos (t : CatTree) : 0 < sizeOf t := by
  cases t
  simp

theorem sortTree_sorted : ∀ (n : Nat) (t : CatTree), sizeOf t ≤ n →
    TreeSorted (sortTree t) := by
  intro n
  induction n with
  | zero =>
    intro t ht
    exact absurd ht (by have := catTree_sizeOf_pos t; omega)
  | succ n ih =>
    intro t ht
    cases t with
    | node c ch =>
      rw [show sortTree (.node c ch) = .node c (sortLe treeLe (sortForestMap ch))
        from rfl]
      refine TreeSorted.node ?_ ?_
      · exact (pairwise_sortLe treeLe treeLe_total treeLe_trans _).imp
          (fun h => (treeLe_iff_nodeLeProp _ _).mp h)
      · intro u hu
        rw [mem_sortLe] at hu
        obtain ⟨v, hv, huv⟩ := (mem_sortForestMap ch u).mp hu
        subst huv
        apply ih
        have h1 : sizeOf v < sizeOf ch := List.sizeOf_lt_of_mem hv
        have h2 : sizeOf (CatTree.node c ch) = 1 + sizeOf c + sizeOf ch := by simp
        omega

/-- C3 counterexample: the tie-break is NOT standard lexicographic string
ordering. Two active sibling roots tie at `sortOrder = 0` with names `"a"`
and `"B"`: standard lexicographic (code-point) ordering puts `"B"` (code
point 66) strictly before `"a"` (97) — the second conjunct — yet the
service returns `"a"` first, because its tie-break is
`nameA.localeCompare(nameB)`, which compares case-insensitively at the
primary level (`a` before `b`). -/
theorem c3_counterexample :
    ((getCategoryTree ⟨[mkTestCat oidA "a" none [] true 0,
        mkTestCat oidB "B" none [] true 0], []⟩ false false).map
      (fun t => (getComparableName t.cat, t.cat.sortOrder))
      = [("a", 0), ("B", 0)]) ∧
    0 < strCmp "a" "B" := by
  decide

/-- C3 (amended): in every forest returned by `getCategoryTree`, the root
list and every node's children list at every depth are sorted by `sortOrder`
ascending, ties broken by the best-available display name (`name`, else the
first present of `name_en`/`name_vi`/`name_ko`, else the empty string)
compared with default-locale `localeCompare` — locale-aware collation:
case-insensitive primary comparison, lowercase before uppercase on exact
primary ties — and not by code-point lexicographic ordering. The claim's
worked example (siblings with `sortOrder` `[10, 0, 10]` and names
`["B", "A", "C"]` coming out as `A(0), B(10), C(10)`) does hold, its names
being case-uniform. -/
theorem c3_amended_sorted_by_locale_collation :
    (∀ (st : StoreState) (ro ii : Bool),
      (getCategoryTree st ro ii).Pairwise nodeLeProp ∧
      ∀ t ∈ getCategoryTree st ro ii, TreeSorted t) ∧
    ((getCategoryTree ⟨[mkTestCat oidA "B" none [] true 10,
        mkTestCat oidB "A" none [] true 0,
        mkTestCat oidC "C" none [] true 10], []⟩ false false).map
      (fun t => (t.cat.name, t.cat.sortOrder))
      = [(some "A", 0), (some "B", 10), (some "C", 10)]) := by
  constructor
  · intro st ro ii
    have hshape : ∃ X, getCategoryTree st ro ii = sortLe treeLe (sortForestMap X) := by
      unfold getCategoryTree sortForest
      cases ro
      · exact ⟨_, rfl⟩
      · exact ⟨_, rfl⟩
    obtain ⟨X, hX⟩ := hshape
    rw [hX]
    constructor
    · exact (pairwise_sortLe treeLe treeLe_total treeLe_trans _).imp
        (fun h => (treeLe_iff_nodeLeProp _ _).mp h)
    · intro t ht
      rw [mem_sortLe] at ht
      obtain ⟨v, hv, htv⟩ := (mem_sortForestMap X t).mp ht
      rw [htv]
      exact sortTree_sorted (sizeOf v) v (Nat.le_refl _)
  · decide

/-- The amended C3 theorem applied to the counterexample store: every tree
of the forest returned for the two tied siblings is `TreeSorted`. -/
theorem c3_amended_witness :
    ∀ t ∈ getCategoryTree ⟨[mkTestCat oidA "a" none [] true 0,
        mkTestCat oidB "B" none [] true 0], []⟩ false false, TreeSorted t :=
  (c3_amended_sorted_by_locale_collation.1 ⟨[mkTestCat oidA "a" none [] true 0,
        mkTestCat oidB "B" none [] true 0], []⟩ false false).2

theorem mem_forestIds (l : List CatTree) (x : String) :
    x ∈ forestIds l ↔ ∃ t ∈ l, x ∈ treeIds t := by
  induction l with
  | nil => simp [forestIds]
  | cons t ts ih =>
    rw [show forestIds (t :: ts) = treeIds t ++ forestIds ts from rfl]
    simp [List.mem_append, ih]

theorem mem_treeIds_sortTree : ∀ (n : Nat) (t : CatTree), sizeOf t ≤ n →
    ∀ x, (x ∈ treeIds (sortTree t) ↔ x ∈ treeIds t) := by
  intro n
  induction n with
  | zero =>
    intro t ht
    exact absurd ht (by have := catTree_sizeOf_pos t; omega)
  | succ n ih =>
    intro t ht x
    cases t with
    | node c ch =>
      rw [show sortTree (.node c ch) = .node c (sortLe treeLe (sortForestMap ch))
        from rfl,
        show treeIds (CatTree.node c (sortLe treeLe (sortForestMap ch)))
          = c.id :: forestIds (sortLe treeLe (sortForestMap ch)) from rfl,
        show treeIds (CatTree.node c ch) = c.id :: forestIds ch from rfl]
      simp only [List.mem_cons]
      have hsz : ∀ v ∈ ch, sizeOf v ≤ n := by
        intro v hv
        have h1 : sizeOf v < sizeOf ch := List.sizeOf_lt_of_mem hv
        have h2 : sizeOf (CatTree.node c ch) = 1 + sizeOf c + sizeOf ch := by simp
        omega
      constructor
      · rintro (h | h)
        · exact Or.inl h
        · right
          rw [mem_forestIds] at h
          obtain ⟨u, hu, hxu⟩ := h
          rw [mem_sortLe] at hu
          obtain ⟨v, hv, huv⟩ := (mem_sortForestMap ch u).mp hu
          rw [huv, ih v (hsz v hv) x] at hxu
          exact (mem_forestIds ch x).mpr ⟨v, hv, hxu⟩
      · rintro (h | h)
        · exact Or.inl h
        · right
          rw [mem_forestIds] at h
          obtain ⟨v, hv, hxv⟩ := h
          rw [mem_forestIds]
          refine ⟨sortTree v, ?_, ?_⟩
          · rw [mem_sortLe]
            exact (mem_sortForestMap ch (sortTree v)).mpr ⟨v, hv, rfl⟩
          · rw [ih v (hsz v hv) x]
            exact hxv

theorem treeIds_subtreeF (cats : List Category) : ∀ (fuel : Nat) (c0 : Category),
    c0 ∈ cats → ∀ x, x ∈ treeIds (subtreeF cats fuel c0) →
    x = c0.id ∨ ∃ e f, e ∈ cats ∧ e.id = x ∧ f ∈ cats ∧ e.parent = some f.id := by
  intro fuel
  induction fuel with
  | zero =>
    intro c0 hc0 x hx
    rw [show treeIds (subtreeF cats 0 c0) = [c0.id] from rfl] at hx
    simp at hx
    exact Or.inl hx
  | succ fuel ih =>
    intro c0 hc0 x hx
    rw [show treeIds (subtreeF cats (fuel + 1) c0)
        = c0.id :: forestIds ((cats.filter
          (fun d => optTruthy d.parent && d.parent == some c0.id)).map
          (subtreeF cats fuel)) from rfl] at hx
    rcases List.mem_cons.mp hx with h | h
    · exact Or.inl h
    · rw [mem_forestIds] at h
      obtain ⟨u, hu, hxu⟩ := h
      rw [List.mem_map] at hu
      obtain ⟨d, hd, hud⟩ := hu
      have hd2 := List.mem_filter.mp hd
      have hdp : d.parent = some c0.id := by
        have h3 := hd2.2
        rw [Bool.and_eq_true] at h3
        simpa using h3.2
      rw [← hud] at hxu
      rcases ih d hd2.1 x hxu with h1 | h1
      · exact Or.inr ⟨d, c0, hd2.1, h1.symm, hc0, hdp⟩
      · exact Or.inr h1

def c1A : Category := mkTestCat oidA "A" none [] false 0
def c1B : Category := mkTestCat oidB "B" (some oidA) [] true 0
def c1St : StoreState := ⟨[c1A, c1B], []⟩

/-- C1 counterexample: with inactive parent `A` and active child `B`,
`getCategoryTree` with `includeInactive = false` returns the EMPTY forest —
`B` does not appear as a root (it does not appear at all), contradicting the
claim's flattening policy (the node is attached only when its parent is in
the filtered map, and is otherwise dropped). -/
theorem c1_counterexample :
    c1B ∈ c1St.categories ∧ c1B.isActive = true ∧ c1B.parent = some c1A.id ∧
    c1A.isActive = false ∧
    forestIds (getCategoryTree c1St false false) = [] := by
  refine ⟨by decide, by decide, by decide, by decide, by decide⟩

theorem getCategoryTree_shape (st : StoreState) (ro ii : Bool) :
    getCategoryTree st ro ii
      = sortLe treeLe (sortForestMap
          (((sortLe dbLe (st.categories.filter (fun c => ii || c.isActive))).filter
            (fun c => !optTruthy c.parent)).map
            (subtreeF (sortLe dbLe (st.categories.filter (fun c => ii || c.isActive)))
              (sortLe dbLe (st.categories.filter (fun c => ii || c.isActive))).length))) := by
  unfold getCategoryTree sortForest
  cases ro <;> rfl

/-- C1 amended: with `includeInactive = false`, an inactive category never
appears in the result, and an active category whose `parent` reference is
not satisfied by any active category does not appear in the result AT ALL —
it is dropped, not flattened into a root. -/
theorem c1_amended_filtered_orphans_dropped :
    ∀ (st : StoreState) (ro : Bool),
      (st.categories.map (fun c => c.id)).Nodup →
      (∀ c ∈ st.categories, c.isActive = false →
        c.id ∉ forestIds (getCategoryTree st ro false)) ∧
      (∀ c p, c ∈ st.categories → c.isActive = true → c.parent = some p → p ≠ "" →
        (∀ d ∈ st.categories, d.isActive = true → d.id ≠ p) →
        c.id ∉ forestIds (getCategoryTree st ro false)) := by
  intro st ro hnodup
  have hinj : ∀ a ∈ st.categories, ∀ b ∈ st.categories, a.id = b.id → a = b :=
    fun a ha b hb hab => List.inj_on_of_nodup_map hnodup ha hb hab
  have hmem_cats : ∀ e, e ∈ sortLe dbLe (st.categories.filter
      (fun c => false || c.isActive)) → e ∈ st.categories ∧ e.isActive = true := by
    intro e he
    rw [mem_sortLe] at he
    have h2 := List.mem_filter.mp he
    exact ⟨h2.1, by simpa using h2.2⟩
  have hsrc : ∀ x, x ∈ forestIds (getCategoryTree st ro false) →
      (∃ r, (r ∈ st.categories ∧ r.isActive = true) ∧
        optTruthy r.parent = false ∧ x = r.id) ∨
      (∃ e f, (e ∈ st.categories ∧ e.isActive = true) ∧ e.id = x ∧
        (f ∈ st.categories ∧ f.isActive = true) ∧ e.parent = some f.id) := by
    intro x hx
    rw [getCategoryTree_shape, mem_forestIds] at hx
    obtain ⟨t, ht, hxt⟩ := hx
    rw [mem_sortLe] at ht
    obtain ⟨v, hv, hvt⟩ := (mem_sortForestMap _ t).mp ht
    rw [hvt, mem_treeIds_sortTree (sizeOf v) v (Nat.le_refl _) x] at hxt
    rw [List.mem_map] at hv
    obtain ⟨r, hr, hrv⟩ := hv
    rw [← hrv] at hxt
    have hr2 := List.mem_filter.mp hr
    rcases treeIds_subtreeF _ _ r hr2.1 x hxt with h1 | ⟨e, f, he, heid, hf, hef⟩
    · left
      exact ⟨r, hmem_cats r hr2.1, by simpa using hr2.2, h1⟩
    · right
      exact ⟨e, f, hmem_cats e he, heid, hmem_cats f hf, hef⟩
  constructor
  · intro c hc hcact hmem
    rcases hsrc c.id hmem with ⟨r, hr, _, hrid⟩ | ⟨e, f, he, heid, _, _⟩
    · have : r = c := hinj r hr.1 c hc hrid.symm
      rw [this] at hr
      rw [hr.2] at hcact
      exact absurd hcact (by simp)
    · have : e = c := hinj e he.1 c hc heid
      rw [this] at he
      rw [he.2] at hcact
      exact absurd hcact (by simp)
  · intro c p hc hcact hcp hpne hnoact hmem
    rcases hsrc c.id hmem with ⟨r, hr, hrroot, hrid⟩ | ⟨e, f, he, heid, hf, hef⟩
    · have hrc : r = c := hinj r hr.1 c hc hrid.symm
      rw [hrc, hcp] at hrroot
      simp [optTruthy, hpne] at hrroot
    · have hec : e = c := hinj e he.1 c hc heid
      rw [hec, hcp] at hef
      rw [Option.some.injEq] at hef
      exact hnoact f hf.1 hf.2 (by rw [← hef])

theorem c1_witness :
    c1A.id ∉ forestIds (getCategoryTree c1St false false) ∧
    c1B.id ∉ forestIds (getCategoryTree c1St false false) := by
  have h := c1_amended_filtered_orphans_dropped c1St false (by decide)
  exact ⟨h.1 c1A (by decide) (by decide),
    h.2 c1B oidA (by decide) (by decide) (by decide) (by decide) (by decide)⟩
